import Mathlib

/-!
Verification of the cget streaming fetch cache (charto/cget).

This development is a shallow embedding of the parts of the source that the
specification talks about:

* `src/src/Address.ts` — URI classification, path sanitization
  (`sanitizePath`, `Address`, `Address.redirect`, `Address.setKey`);
* `src/src/strategy/FileSystemCache.ts` — cached-redirect resolution
  (`getRedirect`) and sidecar headers;
* `src/src/strategy/RemoteTransfer.ts` — response classification, the
  chunk/error buffering protocol, transient-error retry classification;
* `src/unnamed/part_004` (FetchState) — `retryLater` and the retry policy;
* `src/src/Cache.ts` — the `fetch` opened/errored callback wiring and the
  remote download event flow;
* `src/src/mkdirp.ts` — recursive directory creation with
  file-vs-directory conflict healing.

JavaScript numbers are modelled as `Int`/`Rat` (the claims under study are
about the algebra of the retry policy, not float rounding), JS strings as
`String`/`List Char`, the filesystem as a finite association list, and the
asynchronous event loop as explicit event traces folded over a state
machine translated from the corresponding handlers.
-/

set_option maxRecDepth 4000

namespace Cget

/-! ## Sidecar metadata (InternalHeaders, Cache.ts / FileSystemCache.ts)

The source keeps sidecar metadata as a JSON object with reserved fields
cget-status / cget-message / cget-target plus arbitrary response headers
(of which only location matters to the code under study).  Reserved
fields may be absent, which JavaScript reads as undefined. -/

structure InternalHeaders where
  cgetStamp : Option Nat := none
  cgetStatus : Option Nat := none
  cgetMessage : Option String := none
  cgetTarget : Option String := none
  location : Option String := none
  deriving Repr, DecidableEq

/-- Source Cache.ts: defaultHeaders = \x7b cget-status: 200, cget-message: OK \x7d. -/
def defaultHeaders : InternalHeaders :=
  { cgetStatus := some 200, cgetMessage := some "OK" }

/-- Source: status = +(headers[cget-status] or 0). -/
def InternalHeaders.status (h : InternalHeaders) : Nat :=
  h.cgetStatus.getD 0

/-- Source FileSystemCache.ts line 176:
target = headers[cget-target] or (empty string + headers[location]).
String coercion of an absent location yields the string undefined;
the or-chain skips a falsy (empty) cget-target. -/
def InternalHeaders.target (h : InternalHeaders) : String :=
  let locStr := match h.location with
    | some l => l
    | none => "undefined"
  match h.cgetTarget with
  | some t => if t = "" then locStr else t
  | none => locStr

/-- CachedError (Cache.ts): status, optional reason message, the headers
it was raised with. -/
structure CachedError where
  status : Nat
  message : Option String := none
  headers : InternalHeaders := {}
  deriving Repr, DecidableEq

/-! ## FetchState retry policy (src/unnamed/part_004)

Numeric fields are JS numbers; we use Int for the retry counter and Rat
for the delay arithmetic.  Math.random() is passed in explicitly as the
rand argument. -/

structure FetchState where
  retryCount : Int := 0
  retryDelay : Rat := 0
  retryBackoffFactor : Rat := 1
  retriesRemaining : Int := 0
  strategyNum : Nat := 0
  strategyDelay : Rat := 0
  isStreaming : Bool := false
  allowLocal : Bool := false
  allowRemote : Bool := true
  allowCacheRead : Bool := true
  allowCacheWrite : Bool := true
  deriving Repr, DecidableEq

/-- Source part_004 lines 63-72 (FetchState.retryLater).  rand stands for
Math.random(). -/
def FetchState.retryLater (s : FetchState) (rand : Rat) : FetchState :=
  if s.retriesRemaining ≤ 0 then s
  else
    { s with
      retriesRemaining := s.retriesRemaining - 1
      strategyNum := 0
      strategyDelay := s.retryDelay * (1 + rand)
      retryDelay := s.retryDelay * s.retryBackoffFactor }

/-! ## Transient error classification (strategy/RemoteTransfer.ts lines 14-23, 87-94) -/

/-- Character-level model of the JavaScript String.split used by the
source to build retryCodeTbl (and of String.prototype.split generally):
split on every character satisfying p, keeping empty pieces. -/
def splitWhen (p : Char → Bool) : List Char → List (List Char)
  | [] => [[]]
  | c :: cs =>
    let r := splitWhen p cs
    if p c then [] :: r
    else
      match r with
      | [] => [[c]]
      | h :: t => (c :: h) :: t

/-- The retryCodeTbl source string, split on spaces exactly as the source
builds the table (RemoteTransfer.ts lines 14-23). -/
def retryCodeList : List (List Char) :=
  splitWhen (fun c => c = ' ')
    (("EAI_AGAIN ECONNREFUSED ECONNRESET EHOSTUNREACH" ++
      " ENOTFOUND EPIPE ESOCKETTIMEDOUT ETIMEDOUT").toList)

/-- retryCodeTbl membership: retryCodeTbl[err.code or empty-string]. -/
def retryCodeTbl (code : Option String) : Bool :=
  retryCodeList.contains (code.getD "").toList

inductive ErrorAction where
  | retry
  | die
  deriving Repr, DecidableEq

/-- Source RemoteTransfer.start lines 87-94: the request error handler
checks retryCodeTbl and picks retry or die. -/
def handleRequestError (code : Option String) : ErrorAction :=
  if retryCodeTbl code then .retry else .die

/-! ## sanitizePath (src/src/Address.ts lines 29-42) and Address.setKey
(lines 91-93)

The sanitizer chains three global regex replacements over the cache key:
1. every character outside [-_./0-9A-Za-z] becomes an underscore;
2. regex (caret or slash)[-_./]+ replaced by the captured group: after
   the string start or any slash, a maximal run of characters from
   -_./ is dropped (the run may swallow further slashes);
3. regex [-_./]+(dollar or slash) replaced by the captured group: a
   maximal run of characters from -_./ standing at the end of the string
   is dropped entirely; a run followed by another character matches up to
   its last slash (the regex needs at least one run character before the
   captured slash), so such a run is replaced by a slash followed by the
   run characters after its last slash, or kept whole if it contains no
   slash.
The replacements are modelled on character lists; the regex semantics of
2 and 3 (leftmost match, greedy with backtracking, global restart after
each replacement) is what the scanning functions below implement. -/

/-- A character of the class [-_./0-9A-Za-z]. -/
def allowedChar (c : Char) : Bool :=
  c = '-' || c = '_' || c = '.' || c = '/' ||
  ('0' ≤ c && c ≤ '9') || ('A' ≤ c && c ≤ 'Z') || ('a' ≤ c && c ≤ 'z')

/-- A character of the class [-_./]. -/
def classChar (c : Char) : Bool :=
  c = '-' || c = '_' || c = '.' || c = '/'

/-- Replacement 1: characters outside the allowed class become
underscores. -/
def replace1 (xs : List Char) : List Char :=
  xs.map (fun c => if allowedChar c then c else '_')

/-- Replacement 2 as a scan: in skipping mode (after the string start or
an emitted slash) drop class characters; otherwise emit the character,
entering skipping mode after a slash. -/
def r2go : Bool → List Char → List Char
  | _, [] => []
  | true, c :: cs => if classChar c then r2go true cs else c :: r2go false cs
  | false, c :: cs => if c = '/' then '/' :: r2go true cs else c :: r2go false cs

def replace2 (xs : List Char) : List Char := r2go true xs

/-- The run characters after the last slash of a run (the whole run when
it has no slash). -/
def afterLastSlash : List Char → List Char
  | [] => []
  | c :: cs =>
    if '/' ∈ cs then afterLastSlash cs
    else if c = '/' then cs
    else c :: cs

/-- Replacement 3 applied to one maximal class run that is followed by a
non-class character. -/
def r3run (r : List Char) : List Char :=
  if '/' ∈ r then '/' :: afterLastSlash r else r

/-- Replacement 3 as a scan over maximal class runs: pending is the class
run read so far; a run standing at the end of the string is dropped
whole; a run followed by a non-class character is rewritten by r3run. -/
def r3go (pending : List Char) : List Char → List Char
  | [] => []
  | c :: cs =>
    if classChar c then r3go (pending ++ [c]) cs
    else r3run pending ++ c :: r3go [] cs

def replace3 (xs : List Char) : List Char := r3go [] xs

/-- sanitizePath, Address.ts lines 31-42. -/
def sanitizePath (s : String) : String :=
  String.mk (replace3 (replace2 (replace1 s.toList)))

/-- Address.setKey lines 91-93: sanitize, then substitute the platform
separator for the slash. -/
def setKey (sep : Char) (cacheKey : String) : String :=
  String.mk ((sanitizePath cacheKey).toList.map (fun c => if c = '/' then sep else c))

/-! Invariants of the sanitized output, phrased as boundary conditions on
the character list: the first character of the string and the character
after every slash are outside [-_./] (so no component starts with a class
character, in particular no component is ..), and the last character and
the character before every slash are outside [-_./] (so no component ends
with a class character). -/

/-- The head, if any, is not a class character. -/
def headOK : List Char → Bool
  | [] => true
  | c :: _ => !classChar c

/-- Every slash is followed by a non-class character or the end. -/
def slashOK : List Char → Bool
  | [] => true
  | c :: cs => (if c = '/' then headOK cs else true) && slashOK cs

/-- The last character, if any, is not a class character. -/
def lastOK : List Char → Bool
  | [] => true
  | [c] => !classChar c
  | _ :: c :: cs => lastOK (c :: cs)

/-- Every slash is preceded by a non-class character, and the last
character is not a class character. -/
def beforeOK : List Char → Bool
  | [] => true
  | [c] => !classChar c
  | c :: d :: cs => (if d = '/' then !classChar c else true) && beforeOK (d :: cs)

theorem ne_slash_of_classChar_false {c : Char} (h : classChar c = false) : c ≠ '/' := by
  intro hc
  subst hc
  simp [classChar] at h

theorem headOK_r2go_true (xs : List Char) : headOK (r2go true xs) = true := by
  induction xs with
  | nil => rfl
  | cons c cs ih =>
    by_cases hc : classChar c
    · simpa [r2go, hc] using ih
    · simp only [Bool.not_eq_true] at hc
      simp [r2go, hc, headOK]

theorem slashOK_r2go (xs : List Char) : ∀ b, slashOK (r2go b xs) = true := by
  induction xs with
  | nil => intro b; cases b <;> rfl
  | cons c cs ih =>
    intro b
    cases b with
    | true =>
      by_cases hc : classChar c
      · simpa [r2go, hc] using ih true
      · simp only [Bool.not_eq_true] at hc
        simp [r2go, hc, slashOK, if_neg (ne_slash_of_classChar_false hc), ih false]
    | false =>
      by_cases hs : c = '/'
      · subst hs
        simp [r2go, slashOK, headOK_r2go_true, ih true]
      · simp [r2go, hs, slashOK, ih false]

theorem mem_r2go {y : Char} : ∀ (b : Bool) (xs : List Char), y ∈ r2go b xs → y ∈ xs := by
  intro b xs
  induction xs generalizing b with
  | nil => intro h; cases b <;> simp [r2go] at h
  | cons c cs ih =>
    intro h
    cases b with
    | true =>
      by_cases hc : classChar c
      · simp only [r2go, hc, if_pos] at h
        exact List.mem_cons_of_mem _ (ih true h)
      · simp only [r2go, hc, Bool.false_eq_true, if_false, List.mem_cons] at h
        rcases h with h | h
        · exact h ▸ List.mem_cons_self _ _
        · exact List.mem_cons_of_mem _ (ih false h)
    | false =>
      by_cases hs : c = '/'
      · subst hs
        simp only [r2go, if_pos, List.mem_cons] at h
        rcases h with h | h
        · exact h ▸ List.mem_cons_self _ _
        · exact List.mem_cons_of_mem _ (ih true h)
      · simp only [r2go, hs, if_false, List.mem_cons] at h
        rcases h with h | h
        · exact h ▸ List.mem_cons_self _ _
        · exact List.mem_cons_of_mem _ (ih false h)

theorem slashOK_tail {c : Char} {cs : List Char} (h : slashOK (c :: cs) = true) :
    slashOK cs = true := by
  have := (Bool.and_eq_true _ _).mp h
  exact this.2

theorem slashOK_append_right : ∀ (l m : List Char), slashOK (l ++ m) = true →
    slashOK m = true := by
  intro l
  induction l with
  | nil => intro m h; exact h
  | cons c cs ih => intro m h; exact ih m (slashOK_tail h)

theorem mem_afterLastSlash {y : Char} : ∀ (r : List Char), y ∈ afterLastSlash r → y ∈ r := by
  intro r
  induction r with
  | nil => intro h; simp [afterLastSlash] at h
  | cons c cs ih =>
    intro h
    by_cases hm : '/' ∈ cs
    · simp only [afterLastSlash, if_pos hm] at h
      exact List.mem_cons_of_mem _ (ih h)
    · by_cases hc : c = '/'
      · simp only [afterLastSlash, if_neg hm, if_pos hc] at h
        exact List.mem_cons_of_mem _ h
      · simp only [afterLastSlash, if_neg hm, if_neg hc] at h
        exact h

/-- In a class run that is followed by a non-class character under the
slash condition, a slash can only stand at the very end of the run. -/
theorem afterLastSlash_run_nil : ∀ (run : List Char) (x : Char) (rest : List Char),
    (∀ y ∈ run, classChar y = true) → classChar x = false →
    slashOK (run ++ x :: rest) = true → '/' ∈ run → afterLastSlash run = [] := by
  intro run
  induction run with
  | nil => intro x rest _ _ _ h; simp at h
  | cons a run' ih =>
    intro x rest hcls hx hsl hmem
    by_cases ha : a = '/'
    · subst ha
      have h0 : slashOK ('/' :: (run' ++ x :: rest)) = true := by
        simpa [List.cons_append] using hsl
      rw [show slashOK ('/' :: (run' ++ x :: rest)) =
          ((if ('/' : Char) = '/' then headOK (run' ++ x :: rest) else true) &&
            slashOK (run' ++ x :: rest)) from rfl, if_pos rfl,
        Bool.and_eq_true] at h0
      have h1 : headOK (run' ++ x :: rest) = true := h0.1
      cases run' with
      | nil => simp [afterLastSlash]
      | cons b run'' =>
        exfalso
        have hb : classChar b = true := hcls b (by simp)
        simp [headOK, hb, List.cons_append] at h1
    · have hmem' : '/' ∈ run' := by
        rcases List.mem_cons.mp hmem with h | h
        · exact absurd h.symm ha
        · exact h
      have hsl' : slashOK (run' ++ x :: rest) = true :=
        slashOK_tail (by simpa [List.cons_append] using hsl)
      have hrec := ih x rest (fun y hy => hcls y (List.mem_cons_of_mem _ hy)) hx hsl' hmem'
      simp [afterLastSlash, hmem', hrec]

theorem slashOK_append_noslash : ∀ (l m : List Char), (∀ y ∈ l, y ≠ '/') →
    slashOK (l ++ m) = slashOK m := by
  intro l
  induction l with
  | nil => intro m _; rfl
  | cons a l' ih =>
    intro m h
    have ha : a ≠ '/' := h a (List.mem_cons_self _ _)
    simp only [List.cons_append, slashOK, if_neg ha, Bool.true_and]
    exact ih m fun y hy => h y (List.mem_cons_of_mem _ hy)

theorem beforeOK_cons_nonclass {c : Char} (l : List Char) (h : classChar c = false) :
    beforeOK (c :: l) = beforeOK l := by
  cases l with
  | nil => simp [beforeOK, h]
  | cons d cs =>
    by_cases hd : d = '/' <;> simp [beforeOK, h, hd]

theorem beforeOK_append_noslash : ∀ (l : List Char) (x : Char) (m : List Char),
    (∀ y ∈ l, y ≠ '/') → x ≠ '/' → beforeOK (l ++ x :: m) = beforeOK (x :: m) := by
  intro l
  induction l with
  | nil => intro x m _ _; rfl
  | cons a l' ih =>
    intro x m h hx
    cases l' with
    | nil => simp [beforeOK, hx]
    | cons b l'' =>
      have hb : b ≠ '/' := h b (by simp)
      simp only [List.cons_append, beforeOK, if_neg hb, Bool.true_and]
      exact ih x m (fun y hy => h y (List.mem_cons_of_mem _ hy)) hx

theorem mem_r3go {y : Char} : ∀ (xs pending : List Char), y ∈ r3go pending xs →
    y ∈ pending ∨ y ∈ xs ∨ y = '/' := by
  intro xs
  induction xs with
  | nil => intro pending h; simp [r3go] at h
  | cons c cs ih =>
    intro pending h
    by_cases hc : classChar c
    · simp only [r3go, if_pos hc] at h
      rcases ih (pending ++ [c]) h with h1 | h1 | h1
      · rcases List.mem_append.mp h1 with h2 | h2
        · exact Or.inl h2
        · simp only [List.mem_singleton] at h2
          exact Or.inr (Or.inl (h2 ▸ List.mem_cons_self _ _))
      · exact Or.inr (Or.inl (List.mem_cons_of_mem _ h1))
      · exact Or.inr (Or.inr h1)
    · simp only [r3go, hc, Bool.false_eq_true, if_false, List.mem_append,
        List.mem_cons] at h
      rcases h with h1 | h1 | h1
      · unfold r3run at h1
        split at h1
        · rcases List.mem_cons.mp h1 with h2 | h2
          · exact Or.inr (Or.inr h2)
          · exact Or.inl (mem_afterLastSlash _ h2)
        · exact Or.inl h1
      · exact Or.inr (Or.inl (h1 ▸ List.mem_cons_self _ _))
      · rcases ih [] h1 with h2 | h2 | h2
        · simp at h2
        · exact Or.inr (Or.inl (List.mem_cons_of_mem _ h2))
        · exact Or.inr (Or.inr h2)

/-- The boundary invariants of the third replacement: on input satisfying
the slash condition, the output satisfies the slash condition and the
before condition, and a non-class head is preserved. -/
theorem r3go_invariants : ∀ (xs pending : List Char),
    (∀ y ∈ pending, classChar y = true) →
    slashOK (pending ++ xs) = true →
    slashOK (r3go pending xs) = true ∧ beforeOK (r3go pending xs) = true ∧
      (headOK (pending ++ xs) = true → headOK (r3go pending xs) = true) := by
  intro xs
  induction xs with
  | nil =>
    intro pending _ _
    simp [r3go, slashOK, beforeOK, headOK]
  | cons c cs ih =>
    intro pending hcls hsl
    by_cases hc : classChar c
    · have hcls' : ∀ y ∈ pending ++ [c], classChar y = true := by
        intro y hy
        rcases List.mem_append.mp hy with h | h
        · exact hcls y h
        · simp only [List.mem_singleton] at h
          exact h ▸ hc
      have hsl' : slashOK ((pending ++ [c]) ++ cs) = true := by
        simpa [List.append_assoc] using hsl
      obtain ⟨i1, i2, i3⟩ := ih (pending ++ [c]) hcls' hsl'
      refine ⟨by simpa [r3go, hc] using i1, by simpa [r3go, hc] using i2, ?_⟩
      intro hh
      simp only [r3go, if_pos hc]
      apply i3
      simpa [List.append_assoc] using hh
    · have hcb : classChar c = false := by simpa using hc
      have hcslash : c ≠ '/' := ne_slash_of_classChar_false hcb
      have hslcs : slashOK cs = true :=
        slashOK_tail (slashOK_append_right pending (c :: cs) hsl)
      obtain ⟨i1, i2, i3⟩ := ih [] (by simp) (by simpa using hslcs)
      have hout : r3go pending (c :: cs) = r3run pending ++ c :: r3go [] cs := by
        simp [r3go, hc]
      by_cases hm : '/' ∈ pending
      · have hnil : afterLastSlash pending = [] :=
          afterLastSlash_run_nil pending c cs hcls hcb hsl hm
      -- r3run pending = ['/']
        have hrun : r3run pending = ['/'] := by simp [r3run, hm, hnil]
        rw [hout, hrun]
        refine ⟨?_, ?_, ?_⟩
        · simp [slashOK, headOK, hcb, if_neg hcslash, i1, List.singleton_append]
        · show beforeOK ('/' :: c :: r3go [] cs) = true
          rw [show beforeOK ('/' :: c :: r3go [] cs) =
            ((if c = '/' then !classChar '/' else true) && beforeOK (c :: r3go [] cs))
            from rfl]
          simp [if_neg hcslash, beforeOK_cons_nonclass _ hcb, i2]
        · intro hh
          exfalso
          cases pending with
          | nil => simp at hm
          | cons p ps =>
            have : classChar p = true := hcls p (List.mem_cons_self _ _)
            simp [headOK, List.cons_append, this] at hh
      · have hrun : r3run pending = pending := by simp [r3run, hm]
        have hnos : ∀ y ∈ pending, y ≠ '/' := by
          intro y hy heq
          exact hm (heq ▸ hy)
        rw [hout, hrun]
        refine ⟨?_, ?_, ?_⟩
        · rw [slashOK_append_noslash _ _ hnos]
          simp [slashOK, if_neg hcslash, i1]
        · rw [beforeOK_append_noslash _ _ _ hnos hcslash,
            beforeOK_cons_nonclass _ hcb]
          exact i2
        · intro hh
          cases pending with
          | nil => simp [headOK, hcb]
          | cons p ps =>
            exfalso
            have : classChar p = true := hcls p (List.mem_cons_self _ _)
            simp [headOK, List.cons_append, this] at hh

/-! Path components are the pieces of the sanitized string between
separators, in the sense of splitWhen (the model of String.split). -/

theorem splitWhen_ne_nil (p : Char → Bool) : ∀ xs, splitWhen p xs ≠ [] := by
  intro xs
  cases xs with
  | nil => simp [splitWhen]
  | cons c cs =>
    simp only [splitWhen]
    by_cases hp : p c
    · simp [hp]
    · simp only [hp, Bool.false_eq_true, if_false]
      cases splitWhen p cs <;> simp

theorem splitWhen_cons_pos {p : Char → Bool} {c : Char} (cs : List Char)
    (h : p c = true) : splitWhen p (c :: cs) = [] :: splitWhen p cs := by
  simp [splitWhen, h]

theorem splitWhen_cons_neg {p : Char → Bool} {c : Char} {cs h t : List Char}
    {ts : List (List Char)} (hp : p c = false)
    (hsplit : splitWhen p cs = h :: ts) (ht : t = h) :
    splitWhen p (c :: cs) = (c :: t) :: ts := by
  subst ht
  simp [splitWhen, hp, hsplit]

theorem splitWhen_head_nil {p : Char → Bool} : ∀ {cs : List Char}
    {t : List (List Char)}, splitWhen p cs = [] :: t →
    cs = [] ∨ ∃ c' cs', cs = c' :: cs' ∧ p c' = true := by
  intro cs t h
  cases cs with
  | nil => exact Or.inl rfl
  | cons d cs' =>
    by_cases hd : p d
    · exact Or.inr ⟨d, cs', rfl, hd⟩
    · exfalso
      simp only [splitWhen, hd, Bool.false_eq_true, if_false] at h
      rcases hsp : splitWhen p cs' with _ | ⟨h1, t1⟩ <;> rw [hsp] at h <;> simp at h

/-- All parts after the first have non-class heads when the slash
condition holds; all parts do when additionally the string head is
non-class. -/
theorem splitWhen_headOK : ∀ xs : List Char, slashOK xs = true →
    (∀ part ∈ (splitWhen (fun c => c = '/') xs).drop 1, headOK part = true) ∧
    (headOK xs = true → ∀ part ∈ splitWhen (fun c => c = '/') xs,
      headOK part = true) := by
  intro xs
  induction xs with
  | nil =>
    intro _
    refine ⟨by simp [splitWhen], ?_⟩
    intro _ part hp
    simp only [splitWhen, List.mem_singleton] at hp
    subst hp
    rfl
  | cons c cs ih =>
    intro hsl
    have hslcs : slashOK cs = true := slashOK_tail hsl
    obtain ⟨ih1, ih2⟩ := ih hslcs
    by_cases hc : c = '/'
    · subst hc
      have hhd : headOK cs = true := by
        rw [show slashOK ('/' :: cs) =
          ((if ('/' : Char) = '/' then headOK cs else true) && slashOK cs) from rfl,
          if_pos rfl, Bool.and_eq_true] at hsl
        exact hsl.1
      have hall := ih2 hhd
      rw [splitWhen_cons_pos cs (by simp)]
      refine ⟨?_, ?_⟩
      · intro part hp
        exact hall part (by simpa using hp)
      · intro hh
        exfalso
        simp [headOK, classChar] at hh
    · obtain ⟨h, t, hsplit⟩ : ∃ h t, splitWhen (fun c => c = '/') cs = h :: t := by
        rcases hsp : splitWhen (fun c => c = '/') cs with _ | ⟨h1, t1⟩
        · exact absurd hsp (splitWhen_ne_nil _ _)
        · exact ⟨h1, t1, rfl⟩
      rw [splitWhen_cons_neg (by simp [hc]) hsplit rfl]
      refine ⟨?_, ?_⟩
      · intro part hp
        apply ih1
        rw [hsplit]
        simpa using hp
      · intro hh part hp
        rcases List.mem_cons.mp hp with hq | hq
        · subst hq
          simpa [headOK] using hh
        · apply ih1
          rw [hsplit]
          simpa using hq

/-- All parts have non-class last characters when the before condition
holds. -/
theorem splitWhen_lastOK : ∀ xs : List Char, beforeOK xs = true →
    ∀ part ∈ splitWhen (fun c => c = '/') xs, lastOK part = true := by
  intro xs
  induction xs with
  | nil =>
    intro _ part hp
    simp only [splitWhen, List.mem_singleton] at hp
    subst hp
    rfl
  | cons c cs ih =>
    intro hb part hp
    have hbcs : beforeOK cs = true := by
      cases cs with
      | nil => rfl
      | cons d cs' =>
        rw [show beforeOK (c :: d :: cs') =
          ((if d = '/' then !classChar c else true) && beforeOK (d :: cs')) from rfl,
          Bool.and_eq_true] at hb
        exact hb.2
    by_cases hc : c = '/'
    · subst hc
      rw [splitWhen_cons_pos cs (by simp)] at hp
      rcases List.mem_cons.mp hp with hq | hq
      · subst hq; rfl
      · exact ih hbcs part hq
    · obtain ⟨h, t, hsplit⟩ : ∃ h t, splitWhen (fun c => c = '/') cs = h :: t := by
        rcases hsp : splitWhen (fun c => c = '/') cs with _ | ⟨h1, t1⟩
        · exact absurd hsp (splitWhen_ne_nil _ _)
        · exact ⟨h1, t1, rfl⟩
      rw [splitWhen_cons_neg (by simp [hc]) hsplit rfl] at hp
      rcases List.mem_cons.mp hp with hq | hq
      · subst hq
        cases h with
        | nil =>
          rcases splitWhen_head_nil hsplit with hnil | ⟨c', cs', hcs, hc'⟩
          · subst hnil
            rw [show lastOK [c] = !classChar c from rfl]
            simpa [beforeOK] using hb
          · subst hcs
            simp only [decide_eq_true_eq] at hc'
            subst hc'
            rw [show lastOK [c] = !classChar c from rfl]
            rw [show beforeOK (c :: '/' :: cs') =
              ((if ('/' : Char) = '/' then !classChar c else true) &&
                beforeOK ('/' :: cs')) from rfl, if_pos rfl,
              Bool.and_eq_true] at hb
            exact hb.1
        | cons h0 h' =>
          rw [show lastOK (c :: h0 :: h') = lastOK (h0 :: h') from rfl]
          exact ih hbcs (h0 :: h') (by rw [hsplit]; exact List.mem_cons_self _ _)
      · exact ih hbcs part (by rw [hsplit]; exact List.mem_cons_of_mem _ hq)

/-- Parts contain no separator characters. -/
theorem splitWhen_parts_no_sep (p : Char → Bool) : ∀ (xs part : List Char),
    part ∈ splitWhen p xs → ∀ y ∈ part, p y = false := by
  intro xs
  induction xs with
  | nil =>
    intro part hp y hy
    simp only [splitWhen, List.mem_singleton] at hp
    subst hp
    simp at hy
  | cons c cs ih =>
    intro part hp y hy
    by_cases hc : p c
    · rw [splitWhen_cons_pos cs hc] at hp
      rcases List.mem_cons.mp hp with hq | hq
      · subst hq; simp at hy
      · exact ih part hq y hy
    · obtain ⟨h, t, hsplit⟩ : ∃ h t, splitWhen p cs = h :: t := by
        rcases hsp : splitWhen p cs with _ | ⟨h1, t1⟩
        · exact absurd hsp (splitWhen_ne_nil _ _)
        · exact ⟨h1, t1, rfl⟩
      rw [splitWhen_cons_neg (by simpa using hc) hsplit rfl] at hp
      rcases List.mem_cons.mp hp with hq | hq
      · subst hq
        rcases List.mem_cons.mp hy with hz | hz
        · subst hz; simpa using hc
        · exact ih h (by rw [hsplit]; exact List.mem_cons_self _ _) y hz
      · exact ih part (by rw [hsplit]; exact List.mem_cons_of_mem _ hq) y hy

/-- Substituting the separator for the slash commutes with splitting,
provided the separator is the slash itself or does not occur in the
input. -/
theorem splitWhen_map_sep (sep : Char) : ∀ (l : List Char),
    (sep = '/' ∨ ∀ y ∈ l, y ≠ sep) →
    splitWhen (fun c => c = sep) (l.map (fun c => if c = '/' then sep else c)) =
      (splitWhen (fun c => c = '/') l).map
        (List.map (fun c => if c = '/' then sep else c)) := by
  intro l
  induction l with
  | nil => intro _; simp [splitWhen]
  | cons c cs ih =>
    intro hsep
    have hsep' : sep = '/' ∨ ∀ y ∈ cs, y ≠ sep :=
      hsep.imp id (fun h y hy => h y (List.mem_cons_of_mem _ hy))
    by_cases hc : c = '/'
    · subst hc
      simp only [List.map_cons, if_pos rfl]
      rw [splitWhen_cons_pos _ (by simp), splitWhen_cons_pos _ (by simp),
        ih hsep']
      simp
    · have hcsep : c ≠ sep := by
        rcases hsep with h | h
        · rw [h]; exact hc
        · exact h c (List.mem_cons_self _ _)
      obtain ⟨h, t, hsplit⟩ : ∃ h t, splitWhen (fun c => c = '/') cs = h :: t := by
        rcases hsp : splitWhen (fun c => c = '/') cs with _ | ⟨h1, t1⟩
        · exact absurd hsp (splitWhen_ne_nil _ _)
        · exact ⟨h1, t1, rfl⟩
      have hmapped : splitWhen (fun c => c = sep)
          (cs.map (fun c => if c = '/' then sep else c)) =
          (h.map (fun c => if c = '/' then sep else c)) ::
            (t.map (List.map (fun c => if c = '/' then sep else c))) := by
        rw [ih hsep', hsplit]
        rfl
      simp only [List.map_cons, if_neg hc]
      rw [splitWhen_cons_neg (by simp [hcsep]) hmapped rfl,
        splitWhen_cons_neg (by simp [hc]) hsplit rfl]
      simp [List.map_cons, if_neg hc]

/-! ## FileSystemCache.getRedirect (strategy/FileSystemCache.ts lines 170-198)

The source resolves a sidecar chain: read the sidecar JSON for the
address; while the recorded status is a redirect and a target is present,
decrement the redirect budget (state.redirectsRemaining, throwing
CachedError(status, Too many redirects) when it is already exhausted) and
recurse on address.redirect(target).  A recorded status that is nonzero,
not 200 and outside [500,600) raises CachedError; anything else is a
normal cache hit.

The embedding abstracts the two external collaborators of the function:
cachePathOf composes this.getCachePath with address.path (filesystem
directory/index resolution), and redirect is the Address.redirect method
(URL resolution plus path re-derivation).  store is the on-disk sidecar
content keyed by cache path; getHeaders falls back to defaultHeaders when
the sidecar is missing, as the source does.  The budget is threaded
explicitly instead of mutating state.redirectsRemaining; its initial
value is the redirectCount option (the FetchState initialization of
redirectsRemaining is not part of the sources at hand and is modelled
from the spec). -/

structure RedirectResult (A : Type) where
  address : A
  cachePath : String
  headers : InternalHeaders
  deriving Repr, DecidableEq

/-- FileSystemCache.getHeaders: read the sidecar, inventing defaults when
it is absent. -/
def getHeaders (store : String → Option InternalHeaders) (cachePath : String) :
    InternalHeaders :=
  (store cachePath).getD defaultHeaders

/-- FileSystemCache.getRedirect lines 172-198, with redirectsRemaining
passed as the budget argument. -/
def getRedirect {A : Type} (cachePathOf : A → String) (redirect : A → String → A)
    (store : String → Option InternalHeaders) :
    Nat → A → Except CachedError (RedirectResult A)
  | budget, address =>
    let cachePath := cachePathOf address
    let headers := getHeaders store cachePath
    let status := headers.status
    let target := headers.target
    if status ≠ 0 ∧ 300 ≤ status ∧ status ≤ 308 ∧ target ≠ "" then
      match budget with
      | 0 => .error ⟨status, some "Too many redirects", headers⟩
      | b + 1 => getRedirect cachePathOf redirect store b (redirect address target)
    else if status ≠ 0 ∧ status ≠ 200 ∧ (status < 500 ∨ 600 ≤ status) then
      .error ⟨status, headers.cgetMessage, headers⟩
    else
      .ok ⟨address, cachePath, headers⟩

/-! A concrete linear chain of cached redirect sidecars, used to check the
redirect budget: address number i is the string of i copies of the letter
a, sidecar i points at address i+1 with status 301 for i below the chain
depth, and the final address carries a plain 200 sidecar. -/

def chainKey (i : Nat) : String := String.mk (List.replicate i 'a')

/-- A redirect sidecar, as RemoteFetch.addLinks writes them. -/
def redirHdr (t : String) : InternalHeaders :=
  { cgetStatus := some 301, cgetMessage := some "Moved Permanently", cgetTarget := some t }

/-- Sidecar store holding a redirect chain of depth n. -/
def chainStore (n : Nat) : String → Option InternalHeaders := fun s =>
  if s = chainKey s.length then
    if s.length < n then some (redirHdr (chainKey (s.length + 1)))
    else if s.length = n then some defaultHeaders
    else none
  else none

theorem chainKey_length (i : Nat) : (chainKey i).length = i := by
  simp [chainKey, String.length]

theorem chainStore_at (n i : Nat) :
    chainStore n (chainKey i) =
      if i < n then some (redirHdr (chainKey (i + 1)))
      else if i = n then some defaultHeaders
      else none := by
  simp [chainStore, chainKey_length]

theorem chainKey_ne_empty (i : Nat) : chainKey (i + 1) ≠ "" := by
  intro h
  have := congrArg String.length h
  simp [chainKey_length] at this

theorem chain_resolves (n : Nat) : ∀ b i, i ≤ n → n - i ≤ b →
    getRedirect id (fun _ t => t) (chainStore n) b (chainKey i) =
      .ok ⟨chainKey n, chainKey n, defaultHeaders⟩ := by
  intro b
  induction b with
  | zero =>
    intro i hin hbud
    have hi : i = n := by omega
    subst hi
    rw [getRedirect]
    simp only [id, getHeaders, chainStore_at, lt_irrefl, if_false, if_pos rfl,
      Option.getD_some]
    norm_num [defaultHeaders, InternalHeaders.status]
  | succ b ih =>
    intro i hin hbud
    rcases Nat.lt_or_ge i n with hlt | hge
    · rw [getRedirect]
      simp only [id, getHeaders, chainStore_at, if_pos hlt, Option.getD_some]
      have hst : (redirHdr (chainKey (i + 1))).status = 301 := rfl
      have htg : (redirHdr (chainKey (i + 1))).target = chainKey (i + 1) := rfl
      rw [if_pos]
      · exact ih (i + 1) (by omega) (by omega)
      · exact ⟨by simp [hst], by simp [hst], by simp [hst], by
          rw [htg]; exact chainKey_ne_empty i⟩
    · have hi : i = n := by omega
      subst hi
      rw [getRedirect]
      simp only [id, getHeaders, chainStore_at, lt_irrefl, if_false, if_pos rfl,
        Option.getD_some]
      norm_num [defaultHeaders, InternalHeaders.status]

theorem chain_exhausts (n : Nat) : ∀ b i, b + i < n →
    getRedirect id (fun _ t => t) (chainStore n) b (chainKey i) =
      .error ⟨301, some "Too many redirects", redirHdr (chainKey (i + b + 1))⟩ := by
  intro b
  induction b with
  | zero =>
    intro i hlt
    rw [getRedirect]
    simp only [id, getHeaders, chainStore_at, if_pos (by omega : i < n),
      Option.getD_some]
    rw [if_pos]
    · rfl
    · exact ⟨by simp [redirHdr, InternalHeaders.status],
        by simp [redirHdr, InternalHeaders.status],
        by simp [redirHdr, InternalHeaders.status],
        by simpa [redirHdr, InternalHeaders.target] using chainKey_ne_empty i⟩
  | succ b ih =>
    intro i hlt
    rw [getRedirect]
    simp only [id, getHeaders, chainStore_at, if_pos (by omega : i < n),
      Option.getD_some]
    rw [if_pos]
    · have harith : i + 1 + b + 1 = i + (b + 1) + 1 := by omega
      rw [show (redirHdr (chainKey (i + 1))).target = chainKey (i + 1) from rfl]
      rw [ih (i + 1) (by omega), harith]
    · exact ⟨by simp [redirHdr, InternalHeaders.status],
        by simp [redirHdr, InternalHeaders.status],
        by simp [redirHdr, InternalHeaders.status],
        by simpa [redirHdr, InternalHeaders.target] using chainKey_ne_empty i⟩

/-! ## Address (src/src/Address.ts)

The Address class classifies a URI: a urn keeps url equal to the base
url and derives a cache key from the urn parts; anything else goes
through redirect(uri, isFake := true), which resolves the URI against the
current url, classifies the result as local (a file: url, case
insensitive) or remote, and derives the path: url2path for local
addresses, the sanitized cache key for remote ones (unless a
caller-supplied cacheKey is active).  A non-fake redirect additionally
pushes the previous url, path and data onto history; every redirect
updates the sticky wasLocal / wasRemote flags.

The node url library (URL.resolve, URL.parse) and decodeURIComponent are
external collaborators, passed in as the UrlLib record.  path2url of the
working directory (the default base url) is environment dependent, so
the embedding takes the base url as an explicit argument. -/

/-- node url.parse output, restricted to the fields Address reads; node
uses null for absent pieces. -/
structure ParsedUrl where
  protocol : Option String := none
  host : Option String := none
  pathname : Option String := none
  search : Option String := none
  deriving Repr, DecidableEq

structure UrlLib where
  resolve : String → String → String
  parse : String → ParsedUrl
  decode : String → String

/-- Lowercase a single ASCII letter. -/
def charLower (c : Char) : Char :=
  if 'A' ≤ c ∧ c ≤ 'Z' then Char.ofNat (c.toNat + 32) else c

/-- Case-insensitive prefix test (the /^pat/i regex tests), for a
lowercase pattern. -/
def startsWithCI (pre s : String) : Bool :=
  (s.toList.take pre.length).map charLower = pre.toList

/-- The suffix after the first case-insensitive occurrence of pat, if
any (the /pat(.*)/i regex capture). -/
def findCI (pat : List Char) : List Char → Option (List Char)
  | [] => if pat.length = 0 then some [] else none
  | c :: cs =>
    if ((c :: cs).take pat.length).map charLower = pat then
      some ((c :: cs).drop pat.length)
    else findCI pat cs

/-- Address.ts url2path lines 19-27: take the part after file://, split
on slashes, percent-decode each part and join with the platform
separator; a url without file:// raises. -/
def url2path (deps : UrlLib) (sep : Char) (fileUrl : String) : Except String String :=
  match findCI "file://".toList fileUrl.toList with
  | none => .error ("Not a file URL: " ++ fileUrl)
  | some rest =>
    .ok (String.intercalate (String.mk [sep])
      ((splitWhen (fun c => c = '/') rest).map (fun part => deps.decode (String.mk part))))

/-- JavaScript string coercion of a possibly-null value in a
concatenation. -/
def jsStr : Option String → String
  | some s => s
  | none => "null"

/-- The (x or empty-string) idiom. -/
def orEmpty : Option String → String
  | some s => s
  | none => ""

/-- host.replace of colon-and-rest by nothing: the host up to the first
colon. -/
def takeUntilColon (s : String) : String :=
  String.mk (s.toList.takeWhile (fun c => c ≠ ':'))

/-- Address.ts lines 76-84: the string
protocol + origin + slash + pathname + search, split on the class
[/:?], each piece percent-decoded, re-joined with slashes. -/
def deriveKey (deps : UrlLib) (p : ParsedUrl) : String :=
  let origin := takeUntilColon (orEmpty p.host)
  String.intercalate "/"
    ((splitWhen (fun c => c = '/' ∨ c = ':' ∨ c = '?')
        (jsStr p.protocol ++ origin ++ "/" ++ jsStr p.pathname ++
          orEmpty p.search).toList).map
      (fun part => deps.decode (String.mk part)))

/-- JavaScript truthiness of the optional cacheKey string. -/
def optTruthy : Option String → Bool
  | some s => s ≠ ""
  | none => false

structure Address (α : Type) where
  uri : String
  cacheKey : Option String := none
  urn : Option String := none
  url : String
  history : List (String × Option String × Option α) := []
  path : Option String := none
  wasLocal : Bool := false
  wasRemote : Bool := false
  isLocal : Bool := false
  isRemote : Bool := false

/-- Address.setKey lines 91-93 (the method): sanitize the key and store
it as the path. -/
def Address.applySetKey {α : Type} (sep : Char) (a : Address α) (key : String) :
    Address α :=
  { a with path := some (setKey sep key) }

/-- Address.redirect lines 59-89. -/
def Address.redirect {α : Type} (deps : UrlLib) (sep : Char) (a : Address α)
    (url0 : String) (isFake : Bool) (data : Option α) : Except String (Address α) :=
  let a1 := if isFake then a
    else { a with history := a.history ++ [(a.url, a.path, data)] }
  let url := deps.resolve a1.url url0
  let a2 := { a1 with
    url := url
    wasLocal := a1.wasLocal || a1.isLocal
    wasRemote := a1.wasRemote || a1.isRemote }
  if startsWithCI "file:" url then
    match url2path deps sep url with
    | .error e => .error e
    | .ok p => .ok { a2 with isLocal := true, isRemote := false, path := some p }
  else
    let a3 := { a2 with isLocal := false, isRemote := true }
    if optTruthy a3.cacheKey then .ok a3
    else .ok (a3.applySetKey sep (deriveKey deps (deps.parse url)))

/-- The final constructor step, lines 56: if(cacheKey) setKey(cacheKey). -/
def Address.finishKey {α : Type} (sep : Char) (a : Address α) : Address α :=
  if optTruthy a.cacheKey then a.applySetKey sep (a.cacheKey.getD "") else a

/-- Address constructor lines 46-57.  baseUrl stands for
baseUrl or path2url of the working directory. -/
def Address.make (α : Type) (deps : UrlLib) (sep : Char) (uri : String)
    (baseUrl : String) (cacheKey : Option String) : Except String (Address α) :=
  let a0 : Address α := { uri := uri, cacheKey := cacheKey, url := baseUrl }
  if startsWithCI "urn:" uri then
    .ok (Address.finishKey sep
      { a0 with
        urn := some uri
        cacheKey := some (String.mk
          ((uri.toList.drop 4).map (fun c => if c = ':' then '/' else c))) })
  else
    match a0.redirect deps sep uri true none with
    | .error e => .error e
    | .ok a1 => .ok (Address.finishKey sep a1)

/-- Applying a sequence of redirect calls in order. -/
def Address.foldRedirects {α : Type} (deps : UrlLib) (sep : Char) :
    Address α → List (String × Bool × Option α) → Except String (Address α)
  | a, [] => .ok a
  | a, (u, f, d) :: ops =>
    match a.redirect deps sep u f d with
    | .error e => .error e
    | .ok a1 => Address.foldRedirects deps sep a1 ops

/-- What a successful redirect does to the classification flags, the
sticky flags and the history. -/
theorem Address.redirect_ok_classify {α : Type} (deps : UrlLib) (sep : Char)
    (a : Address α) (url0 : String) (isFake : Bool) (data : Option α)
    (a' : Address α) (h : a.redirect deps sep url0 isFake data = .ok a') :
    a'.isLocal = startsWithCI "file:" (deps.resolve a.url url0) ∧
    a'.isRemote = !a'.isLocal ∧
    a'.wasLocal = (a.wasLocal || a.isLocal) ∧
    a'.wasRemote = (a.wasRemote || a.isRemote) ∧
    a'.url = deps.resolve a.url url0 ∧
    (isFake = false → a'.history = a.history ++ [(a.url, a.path, data)]) := by
  unfold Address.redirect at h
  cases isFake with
  | true =>
    simp only [if_true, Bool.true_eq_false, false_implies, and_true] at h ⊢
    by_cases hf : startsWithCI "file:" (deps.resolve a.url url0) = true
    · rw [if_pos hf] at h
      rcases hp : url2path deps sep (deps.resolve a.url url0) with e | p <;>
        rw [hp] at h
      · simp at h
      · simp only [Except.ok.injEq] at h
        subst h
        simp [hf]
    · rw [if_neg hf] at h
      rcases ht : optTruthy a.cacheKey with _ | _ <;> rw [ht] at h <;>
        simp only [Bool.false_eq_true, if_false, if_true, Except.ok.injEq] at h <;>
        subst h <;>
        simp [Address.applySetKey, Bool.not_eq_true] at hf ⊢ <;> simp [hf]
  | false =>
    simp only [Bool.false_eq_true, if_false, forall_const] at h ⊢
    by_cases hf : startsWithCI "file:" (deps.resolve a.url url0) = true
    · rw [if_pos hf] at h
      rcases hp : url2path deps sep (deps.resolve a.url url0) with e | p <;>
        rw [hp] at h
      · simp at h
      · simp only [Except.ok.injEq] at h
        subst h
        simp [hf]
    · rw [if_neg hf] at h
      rcases ht : optTruthy a.cacheKey with _ | _ <;> rw [ht] at h <;>
        simp only [Bool.false_eq_true, if_false, if_true, Except.ok.injEq] at h <;>
        subst h <;>
        simp [Address.applySetKey, Bool.not_eq_true] at hf ⊢ <;> simp [hf]

/-- A urn constructor result: the finishKey step only sets path. -/
theorem Address.make_urn {α : Type} (deps : UrlLib) (sep : Char) (uri base : String)
    (ck : Option String) (a' : Address α) (hu : startsWithCI "urn:" uri = true)
    (h : Address.make α deps sep uri base ck = .ok a') :
    a'.isLocal = false ∧ a'.isRemote = false ∧ a'.urn = some uri ∧ a'.url = base := by
  unfold Address.make at h
  rw [if_pos hu] at h
  simp only [Except.ok.injEq] at h
  subst h
  unfold Address.finishKey
  split <;> simp [Address.applySetKey]

/-- The sticky flags never revert to false over a sequence of redirects. -/
theorem Address.foldRedirects_sticky {α : Type} (deps : UrlLib) (sep : Char) :
    ∀ (ops : List (String × Bool × Option α)) (a a' : Address α),
    Address.foldRedirects deps sep a ops = .ok a' →
    (a.wasLocal = true → a'.wasLocal = true) ∧
    (a.wasRemote = true → a'.wasRemote = true) := by
  intro ops
  induction ops with
  | nil =>
    intro a a' h
    simp only [Address.foldRedirects, Except.ok.injEq] at h
    subst h
    exact ⟨id, id⟩
  | cons op ops ih =>
    intro a a' h
    obtain ⟨u, f, d⟩ := op
    unfold Address.foldRedirects at h
    rcases hr : a.redirect deps sep u f d with e | a1 <;> rw [hr] at h
    · simp at h
    · have hc := Address.redirect_ok_classify deps sep a u f d a1 hr
      have hrest := ih a1 a' h
      exact ⟨fun hw => hrest.1 (by rw [hc.2.2.1]; simp [hw]),
        fun hw => hrest.2 (by rw [hc.2.2.2.1]; simp [hw])⟩

/-- The path a redirect derives when no caller-supplied cacheKey is
active, as a function of the resolved url alone. -/
def pathFromUrl (deps : UrlLib) (sep : Char) (url : String) :
    Except String (Option String) :=
  if startsWithCI "file:" url then
    match url2path deps sep url with
    | .error e => .error e
    | .ok p => .ok (some p)
  else .ok (some (setKey sep (deriveKey deps (deps.parse url))))

theorem Address.redirect_cacheKey {α : Type} (deps : UrlLib) (sep : Char)
    (a : Address α) (url0 : String) (isFake : Bool) (data : Option α)
    (a' : Address α) (h : a.redirect deps sep url0 isFake data = .ok a') :
    a'.cacheKey = a.cacheKey := by
  unfold Address.redirect at h
  cases isFake with
  | true =>
    simp only [if_true] at h
    split at h
    · split at h
      · exact absurd h (by simp)
      · simp only [Except.ok.injEq] at h
        subst h
        rfl
    · split at h <;> (simp only [Except.ok.injEq] at h; subst h; rfl)
  | false =>
    simp only [Bool.false_eq_true, if_false] at h
    split at h
    · split at h
      · exact absurd h (by simp)
      · simp only [Except.ok.injEq] at h
        subst h
        rfl
    · split at h <;> (simp only [Except.ok.injEq] at h; subst h; rfl)

theorem Address.redirect_path {α : Type} (deps : UrlLib) (sep : Char)
    (a : Address α) (url0 : String) (isFake : Bool) (data : Option α)
    (hck : optTruthy a.cacheKey = false) :
    (a.redirect deps sep url0 isFake data).map (fun x => x.path) =
      pathFromUrl deps sep (deps.resolve a.url url0) := by
  unfold Address.redirect pathFromUrl
  cases isFake with
  | true =>
    simp only [if_true]
    by_cases hf : startsWithCI "file:" (deps.resolve a.url url0) = true
    · rw [if_pos hf, if_pos hf]
      rcases hp : url2path deps sep (deps.resolve a.url url0) with e | p <;>
        simp [hp, Except.map]
    · rw [if_neg hf, if_neg hf, if_neg (by simp [hck])]
      simp [Except.map, Address.applySetKey]
  | false =>
    simp only [Bool.false_eq_true, if_false]
    by_cases hf : startsWithCI "file:" (deps.resolve a.url url0) = true
    · rw [if_pos hf, if_pos hf]
      rcases hp : url2path deps sep (deps.resolve a.url url0) with e | p <;>
        simp [hp, Except.map]
    · rw [if_neg hf, if_neg hf, if_neg (by simp [hck])]
      simp [Except.map, Address.applySetKey]

/-- A non-urn construction without caller cacheKey: the path is a
function of the resolved url, and the url field is the resolved url. -/
theorem Address.make_path {α : Type} (deps : UrlLib) (sep : Char)
    (uri base : String) (a : Address α)
    (hnu : startsWithCI "urn:" uri = false)
    (h : Address.make α deps sep uri base none = .ok a) :
    Except.ok (ε := String) a.path = pathFromUrl deps sep (deps.resolve base uri) ∧
    a.url = deps.resolve base uri := by
  unfold Address.make at h
  rw [if_neg (by simp [hnu])] at h
  rcases hr : ({ uri := uri, cacheKey := none, url := base } : Address α).redirect
      deps sep uri true none with e | a1 <;> rw [hr] at h
  · simp at h
  · simp only [Except.ok.injEq] at h
    have hck : a1.cacheKey = none :=
      Address.redirect_cacheKey deps sep _ uri true none a1 hr
    have hfin : Address.finishKey sep a1 = a1 := by
      unfold Address.finishKey
      rw [hck]
      rfl
    rw [hfin] at h
    subst h
    constructor
    · have hp := Address.redirect_path deps sep
        ({ uri := uri, cacheKey := none, url := base } : Address α) uri true none rfl
      rw [hr] at hp
      simpa [Except.map] using hp
    · exact (Address.redirect_ok_classify deps sep _ uri true none a1 hr).2.2.2.2.1

/-! ## RemoteTransfer.onResponse status classification
(strategy/RemoteTransfer.ts lines 119-151)

onResponse merges the raw response headers with cget-stamp / cget-status /
cget-message, then: 5xx calls retry; any other non-200 builds a
CachedError, opportunistically writes a sidecar-only cache entry when
cache writes are allowed, and dies; 200 proceeds to open the stream
(optionally fanning bytes out to a cache writer). -/

/-- extend(headers, res.headers) followed by
extend(headers, \x7b cget-stamp, cget-status, cget-message \x7d). -/
def responseHeaders (raw : InternalHeaders) (stamp status : Nat) (message : String) :
    InternalHeaders :=
  { raw with
    cgetStamp := some stamp
    cgetStatus := some status
    cgetMessage := some message }

inductive ResponseAction where
  | retryAct
  | failAct (sidecar : Option InternalHeaders) (err : CachedError)
  | openStream (writeCache : Bool) (headers : InternalHeaders)
  deriving Repr, DecidableEq

/-- RemoteTransfer.onResponse lines 119-151: branch on the status code.
The sidecar component of failAct is the headers object passed to
cache.store(address, undefined, headers) when allowCacheWrite holds. -/
def onResponseClassify (allowCacheWrite : Bool) (raw : InternalHeaders)
    (stamp status : Nat) (message : String) : ResponseAction :=
  let headers := responseHeaders raw stamp status message
  if 500 ≤ status ∧ status < 600 then .retryAct
  else if status ≠ 200 then
    .failAct (if allowCacheWrite then some headers else none)
      ⟨status, some message, headers⟩
  else .openStream allowCacheWrite headers

/-- FileSystemCache.store with data undefined and headers present: write
the sidecar JSON at the header path of the cache path (lines 157-165);
modelled as a store update at that key. -/
def storeSidecar (store : String → Option InternalHeaders) (cachePath : String)
    (h : InternalHeaders) : String → Option InternalHeaders :=
  fun s => if s = cachePath then some h else store s

/-! ## Cache.fetch handler dispatch (src/src/Cache.ts lines 333-391)

fetch picks one handler: local file when the address is local and local
access is allowed; cache-then-maybe-remote when the address is not local
and cache reads are allowed; remote when the address is not local and
remote access is allowed; otherwise it rejects with a 403.  The
cache-read handler re-throws CachedError, any error whose code is not
ENOENT, and any error when remote access is disabled; only an ENOENT with
remote access allowed falls through to the network. -/

inductive HandlerChoice where
  | localPath
  | cachedPath
  | remotePath
  | denied
  deriving Repr, DecidableEq

/-- Cache.fetch lines 345-376: handler selection. -/
def chooseHandler (isLocal allowLocal allowCacheRead allowRemote : Bool) :
    HandlerChoice :=
  if isLocal && allowLocal then .localPath
  else if !isLocal && allowCacheRead then .cachedPath
  else if !isLocal && allowRemote then .remotePath
  else .denied

/-- Errors flowing through the fetch pipeline: either a CachedError
(carrying isCachedError = true) or an errno-style error. -/
inductive FetchError where
  | cached (e : CachedError)
  | errno (code : String)
  deriving Repr, DecidableEq

inductive CatchDecision where
  | rethrow
  | fallRemote
  deriving Repr, DecidableEq

/-- Cache.fetch lines 356-367: the catch around fetchCached.  Re-throw if
the error is a CachedError, or its code is not ENOENT, or remote access
is not allowed; otherwise fall through to fetchRemote. -/
def cachedCatch (err : FetchError) (allowRemote : Bool) : CatchDecision :=
  let isCachedError := match err with | .cached _ => true | .errno _ => false
  let code : Option String := match err with | .cached _ => none | .errno c => some c
  if isCachedError || !(code = some "ENOENT") || !allowRemote then .rethrow
  else .fallRemote

/-- Outcome of the cache-read handler of Cache.fetch: the composition of
getRedirect with the catch of lines 356-367.  remote means the handler
proceeds to fetchRemote (network contact); failed means the fetch promise
is rejected without any network contact. -/
inductive CacheFetchOutcome (A : Type) where
  | stream (r : RedirectResult A)
  | failed (e : FetchError)
  | remote
  deriving Repr, DecidableEq

def fetchViaCache {A : Type} (allowRemote : Bool)
    (redirectOutcome : Except CachedError (RedirectResult A)) : CacheFetchOutcome A :=
  match redirectOutcome with
  | .ok r => .stream r
  | .error e =>
    match cachedCatch (.cached e) allowRemote with
    | .rethrow => .failed (.cached e)
    | .fallRemote => .remote

/-! ## RemoteTransfer chunk and error buffering
(strategy/RemoteTransfer.ts lines 104-117 and 164-192)

Until state.startStream resolves, onData pushes chunks into chunkList and
die pushes errors into errorList (die also rejects the attempt promise,
which does not touch the output stream).  When the startStream promise
chain resolves, the continuation of lines 168-191 runs: it reassigns
onData and onEnd to write straight to the cache writer and the output
buffer, replays the buffered chunks in arrival order, replays the
buffered errors on the output buffer, replays a buffered end, and clears
both queues.  state.isStreaming is set by the step of the same promise
chain immediately before that continuation, with no intervening
macrotask, so the machine below treats the whole open resolution as one
atomic transition.  Chunk and error payloads are opaque (numbers). -/

inductive TEv where
  | dataEv (c : Nat)
  | errEv (e : Nat)
  | endEv
  | openEv
  deriving Repr, DecidableEq

inductive Out where
  | storeWrite (c : Nat)
  | bufWrite (c : Nat)
  | bufError (e : Nat)
  | storeEnd
  | bufEnd
  deriving Repr, DecidableEq

structure TState where
  hasStore : Bool
  isStreaming : Bool := false
  chunkList : List Nat := []
  errorList : List Nat := []
  isEnded : Bool := false
  deriving Repr, DecidableEq

/-- The reassigned onData of lines 170-173: write to the cache writer
when present, then to the output buffer. -/
def liveData (hasStore : Bool) (c : Nat) : List Out :=
  (if hasStore then [.storeWrite c] else []) ++ [.bufWrite c]

/-- The reassigned onEnd of lines 175-178. -/
def liveEnd (hasStore : Bool) : List Out :=
  (if hasStore then [.storeEnd] else []) ++ [.bufEnd]

/-- One event of the transfer: initial onData / onEnd queue (lines
116-117), die routes errors to the queue or the live stream (lines
104-114), and the open resolution replays and clears (lines 168-191). -/
def transferStep (s : TState) : TEv → TState × List Out
  | .dataEv c =>
    if s.isStreaming then (s, liveData s.hasStore c)
    else ({ s with chunkList := s.chunkList ++ [c] }, [])
  | .errEv e =>
    if s.isStreaming then (s, [.bufError e])
    else ({ s with errorList := s.errorList ++ [e] }, [])
  | .endEv =>
    if s.isStreaming then (s, liveEnd s.hasStore)
    else ({ s with isEnded := true }, [])
  | .openEv =>
    ({ s with isStreaming := true, chunkList := [], errorList := [] },
      (s.chunkList.map (liveData s.hasStore)).flatten ++
      s.errorList.map Out.bufError ++
      (if s.isEnded then liveEnd s.hasStore else []))

/-- Fold a list of events through the transfer, accumulating outputs. -/
def transferRun (s : TState) : List TEv → TState × List Out
  | [] => (s, [])
  | e :: es =>
    let p := transferStep s e
    let q := transferRun p.1 es
    (q.1, p.2 ++ q.2)

/-- The data chunks of an event list, in arrival order. -/
def datasOf : List TEv → List Nat
  | [] => []
  | .dataEv c :: es => c :: datasOf es
  | _ :: es => datasOf es

/-- The errors of an event list, in arrival order. -/
def errsOf : List TEv → List Nat
  | [] => []
  | .errEv e :: es => e :: errsOf es
  | _ :: es => errsOf es

/-- Whether the event list contains the end of the response body. -/
def sawEnd : List TEv → Bool
  | [] => false
  | .endEv :: _ => true
  | _ :: es => sawEnd es

/-- The outputs of an event list handled entirely in streaming mode. -/
def liveOuts (hasStore : Bool) : List TEv → List Out
  | [] => []
  | .dataEv c :: es => liveData hasStore c ++ liveOuts hasStore es
  | .errEv e :: es => .bufError e :: liveOuts hasStore es
  | .endEv :: es => liveEnd hasStore ++ liveOuts hasStore es
  | .openEv :: es => liveOuts hasStore es

theorem transferRun_buffering (hasStore : Bool) :
    ∀ (pre : List TEv) (cl el : List Nat) (ended : Bool), TEv.openEv ∉ pre →
    transferRun ⟨hasStore, false, cl, el, ended⟩ pre =
      (⟨hasStore, false, cl ++ datasOf pre, el ++ errsOf pre, ended || sawEnd pre⟩,
        []) := by
  intro pre
  induction pre with
  | nil => intro cl el ended _; simp [transferRun, datasOf, errsOf, sawEnd]
  | cons e es ih =>
    intro cl el ended hmem
    have hmem' : TEv.openEv ∉ es := fun h => hmem (List.mem_cons_of_mem _ h)
    cases e with
    | dataEv c =>
      simp only [transferRun, transferStep, if_neg (by simp : ¬ false = true)]
      rw [ih _ _ _ hmem']
      simp [datasOf, errsOf, sawEnd]
    | errEv x =>
      simp only [transferRun, transferStep, if_neg (by simp : ¬ false = true)]
      rw [ih _ _ _ hmem']
      simp [datasOf, errsOf, sawEnd]
    | endEv =>
      simp only [transferRun, transferStep, if_neg (by simp : ¬ false = true)]
      rw [ih _ _ _ hmem']
      simp [datasOf, errsOf, sawEnd]
    | openEv => exact absurd (List.mem_cons_self _ _) hmem

theorem transferRun_streaming (hasStore : Bool) :
    ∀ (post : List TEv) (ended : Bool), TEv.openEv ∉ post →
    transferRun ⟨hasStore, true, [], [], ended⟩ post =
      (⟨hasStore, true, [], [], ended⟩, liveOuts hasStore post) := by
  intro post
  induction post with
  | nil => intro ended _; simp [transferRun, liveOuts, sawEnd]
  | cons e es ih =>
    intro ended hmem
    have hmem' : TEv.openEv ∉ es := fun h => hmem (List.mem_cons_of_mem _ h)
    cases e with
    | dataEv c =>
      simp only [transferRun, transferStep, eq_self_iff_true, if_true, ite_true]
      rw [ih _ hmem']
      simp [liveOuts, sawEnd]
    | errEv x =>
      simp only [transferRun, transferStep, eq_self_iff_true, if_true, ite_true]
      rw [ih _ hmem']
      simp [liveOuts, sawEnd]
    | endEv =>
      simp only [transferRun, transferStep, eq_self_iff_true, if_true, ite_true]
      rw [ih _ hmem']
      simp [liveOuts, sawEnd]
    | openEv => exact absurd (List.mem_cons_self _ _) hmem

theorem transferRun_append (s : TState) (xs ys : List TEv) :
    transferRun s (xs ++ ys) =
      ((transferRun (transferRun s xs).1 ys).1,
        (transferRun s xs).2 ++ (transferRun (transferRun s xs).1 ys).2) := by
  induction xs generalizing s with
  | nil => simp [transferRun]
  | cons e es ih =>
    have h1 : transferRun s (e :: (es ++ ys)) =
        ((transferRun (transferStep s e).1 (es ++ ys)).1,
          (transferStep s e).2 ++ (transferRun (transferStep s e).1 (es ++ ys)).2) :=
      rfl
    have h2 : transferRun s (e :: es) =
        ((transferRun (transferStep s e).1 es).1,
          (transferStep s e).2 ++ (transferRun (transferStep s e).1 es).2) := rfl
    rw [List.cons_append, h1, ih, h2]
    simp [List.append_assoc]

/-! ## Cache.fetch callback wiring and the remote download event flow
(src/src/Cache.ts lines 333-391 and 417-614)

Cache.fetch wraps the promise executor's opened / errored callbacks
(lines 378-390): the handler's open callback runs opened(result) and
sets isOpened whenever isErrored is still false; the handler's rejection
runs errored(err) when isOpened is still false and sets isErrored.

fetchRemote (lines 417-614) drives one download.  Its followRedirect
hook (lines 454-487) stores the redirect and, when cache reads are
allowed, starts fetchCached on the redirect target with the same opened
wrapper; if the target is cached, openLocal invokes opened as soon as
the cached file's open event fires (line 134), while the continuation
that sets isFound and aborts the request (lines 468-479) only runs after
the cached body has been read to its end.  The response handler (lines
515-595) is skipped when isFound is already set; otherwise a 5xx or a
non-200 dies, and a 200 arranges the cache writer and output pipe, after
which the pipeReady chain invokes opened again (lines 584-594).  die
(lines 437-449) aborts, emits the error on the output stream when the
stream was opened, and rejects the attempt promise, reaching the
wrapper's catch.

The machine below folds these handlers over a trace of event-loop
events.  Each event is one handler activation; chained microtask
continuations that cannot be interleaved by other events are part of the
same transition.  Spawned cached reads are counted: cachedOpen and
cachedEnd events are admissible only while a spawned read has not yet
opened or ended (inadmissible events leave the state unchanged). -/

structure RemoteRun where
  isResolved : Bool := false
  isFound : Bool := false
  isOpenedR : Bool := false
  startedReads : Nat := 0
  openedReads : Nat := 0
  endedReads : Nat := 0
  pipePending : Bool := false
  sidecarWritten : Bool := false
  bufferErrors : Nat := 0
  isOpenedW : Bool := false
  isErroredW : Bool := false
  openedCount : Nat := 0
  erroredCount : Nat := 0
  deriving Repr, DecidableEq

inductive REv where
  | redirect (targetCached : Bool)
  | cachedOpen
  | cachedEnd
  | response (status : Nat)
  | pipeReady
  | reqEnd
  | reqError
  deriving Repr, DecidableEq

/-- The opened wrapper of Cache.fetch lines 380-384. -/
def wrapperOpen (s : RemoteRun) : RemoteRun :=
  if s.isErroredW then s
  else { s with isOpenedW := true, openedCount := s.openedCount + 1 }

/-- The catch of Cache.fetch lines 385-388, reached through a rejection
of the handler promise. -/
def wrapperReject (s : RemoteRun) : RemoteRun :=
  { s with
    erroredCount := if s.isOpenedW then s.erroredCount else s.erroredCount + 1
    isErroredW := true }

/-- die, Cache.ts lines 437-449. -/
def die (s : RemoteRun) : RemoteRun :=
  if s.isResolved then s
  else
    wrapperReject
      { s with
        isResolved := true
        bufferErrors := if s.isOpenedR then s.bufferErrors + 1 else s.bufferErrors }

/-- One event-loop activation of the fetchRemote handlers. -/
def remoteStep (allowCacheRead allowCacheWrite : Bool) (s : RemoteRun) :
    REv → RemoteRun
  | .redirect targetCached =>
    if allowCacheRead && targetCached then
      { s with startedReads := s.startedReads + 1 }
    else s
  | .cachedOpen =>
    if s.openedReads < s.startedReads then
      wrapperOpen { s with openedReads := s.openedReads + 1 }
    else s
  | .cachedEnd =>
    if s.endedReads < s.openedReads then
      let s1 := { s with endedReads := s.endedReads + 1, isOpenedR := true }
      if s1.isFound || s1.isResolved then s1
      else { s1 with isFound := true, isResolved := true }
    else s
  | .response status =>
    if s.isFound then s
    else
      let s1 := { s with isFound := true }
      if 500 ≤ status ∧ status < 600 then die s1
      else if status ≠ 200 then
        die { s1 with sidecarWritten := allowCacheWrite }
      else { s1 with pipePending := true }
  | .pipeReady =>
    if s.pipePending then
      { wrapperOpen s with pipePending := false, isOpenedR := true }
    else s
  | .reqEnd =>
    if s.isResolved then s else { s with isResolved := true }
  | .reqError => die s

def runRemote (allowCacheRead allowCacheWrite : Bool) (s : RemoteRun)
    (evs : List REv) : RemoteRun :=
  evs.foldl (remoteStep allowCacheRead allowCacheWrite) s

/-! ## mkdirp (src/src/mkdirp.ts lines 41-99)

mkdirp walks from the requested directory toward the root until a stat
succeeds: a file found where a directory is needed is healed (rename the
file to the sibling path with a dot and a random suffix appended, create
the directory, move the renamed file inside under indexName); a
directory stops the walk; any other node kind throws; a stat (or heal)
error other than ENOENT / ENOTDIR is re-thrown, otherwise the last path
component is popped and the walk continues.  The missing components are
then created top-down, tolerating EEXIST from racing writers and
re-throwing any other error.

The filesystem is a finite association list from component lists to
nodes, with an explicit root entry; errors are the errno strings the
source compares against.  Each run also returns the trace of rename and
mkdir operations it performed. -/

inductive NodeKind where
  | file (content : String)
  | dir
  | other
  deriving Repr, DecidableEq

abbrev FS := List (List String × NodeKind)

inductive FSOp where
  | rename (src dst : List String)
  | mkdir (p : List String)
  deriving Repr, DecidableEq

def fsLookup (fs : FS) (p : List String) : Option NodeKind :=
  (fs.find? (fun e => e.1 = p)).map (fun e => e.2)

def statFS (fs : FS) (p : List String) : Except String NodeKind :=
  match fsLookup fs p with
  | some k => .ok k
  | none => .error "ENOENT"

def renameFS (fs : FS) (src dst : List String) : Except String FS :=
  match fsLookup fs src with
  | none => .error "ENOENT"
  | some k => .ok ((fs.filter (fun e => e.1 ≠ src)) ++ [(dst, k)])

def mkdirFS (fs : FS) (p : List String) : Except String FS :=
  match fsLookup fs p with
  | some _ => .error "EEXIST"
  | none =>
    if fsLookup fs p.dropLast = some .dir then .ok (fs ++ [(p, .dir)])
    else .error "ENOENT"

/-- mkdirp.ts lines 54-69: a file where a directory is needed is renamed
to the sibling path with a dot and the random suffix appended, the
directory is created, and the file moves inside as indexName. -/
def healFile (fs : FS) (pre : List String) (indexName suffix : String) :
    Except String (FS × List FSOp) :=
  match pre with
  | [] => .error "ENOENT"
  | p :: ps =>
    let lastC := (p :: ps).getLast (by simp)
    let temp := (p :: ps).dropLast ++ [lastC ++ "." ++ suffix]
    match renameFS fs (p :: ps) temp with
    | .error e => .error e
    | .ok fs1 =>
      match mkdirFS fs1 (p :: ps) with
      | .error e => .error e
      | .ok fs2 =>
        match renameFS fs2 temp ((p :: ps) ++ [indexName]) with
        | .error e => .error e
        | .ok fs3 =>
          .ok (fs3, [.rename (p :: ps) temp, .mkdir (p :: ps),
            .rename temp ((p :: ps) ++ [indexName])])

/-- One iteration body of the repeat loop (mkdirp.ts lines 53-72). -/
def tryBase (fs : FS) (pre : List String) (indexName suffix : String) :
    Except String (FS × List FSOp) :=
  match statFS fs pre with
  | .ok (.file _) => healFile fs pre indexName suffix
  | .ok .dir => .ok (fs, [])
  | .ok .other => .error "EWEIRD"
  | .error e => .error e

/-- The repeat loop with its catch (mkdirp.ts lines 48-79): pop the last
component and continue on ENOENT / ENOTDIR, re-throw anything else.
When no component of the path exists, the source leaves the base
undefined; with the explicit root entry of this model that corner is
unreachable, and the model returns the empty base there. -/
def findBaseGo (indexName suffix : String) (fs : FS) :
    Nat → List String → Except String (FS × List FSOp × List String)
  | 0, pre =>
    match tryBase fs pre indexName suffix with
    | .ok r => .ok (r.1, r.2, pre)
    | .error e =>
      if e = "ENOENT" ∨ e = "ENOTDIR" then .ok (fs, [], []) else .error e
  | n + 1, pre =>
    match tryBase fs pre indexName suffix with
    | .ok r => .ok (r.1, r.2, pre)
    | .error e =>
      if e = "ENOENT" ∨ e = "ENOTDIR" then
        match pre with
        | [] => .ok (fs, [], [])
        | q :: qs => findBaseGo indexName suffix fs n (q :: qs).dropLast
      else .error e

/-- The walk pops one component per iteration, so its number of
iterations is bounded by the component count; the bound is passed as a
structural argument. -/
def findBase (indexName suffix : String) (fs : FS)
    (pre : List String) : Except String (FS × List FSOp × List String) :=
  findBaseGo indexName suffix fs pre.length pre

/-- One step of the reduce (mkdirp.ts lines 82-96): create a component,
tolerating EEXIST. -/
def mkdirPart (fs : FS) (p : List String) : Except String (FS × List FSOp) :=
  match mkdirFS fs p with
  | .ok fs1 => .ok (fs1, [.mkdir p])
  | .error e => if e = "EEXIST" then .ok (fs, [.mkdir p]) else .error e

/-- The reduce over the components that did not exist yet. -/
def mkdirParts (fs : FS) : List String → List String → Except String (FS × List FSOp)
  | _, [] => .ok (fs, [])
  | base, part :: rest =>
    match mkdirPart fs (base ++ [part]) with
    | .error e => .error e
    | .ok (fs1, ops1) =>
      match mkdirParts fs1 (base ++ [part]) rest with
      | .error e => .error e
      | .ok (fs2, ops2) => .ok (fs2, ops1 ++ ops2)

/-- mkdirp (lines 41-99). -/
def mkdirp (fs : FS) (pathName : List String) (indexName suffix : String) :
    Except String (FS × List FSOp) :=
  match findBase indexName suffix fs pathName with
  | .error e => .error e
  | .ok (fs1, ops1, base) =>
    match mkdirParts fs1 base (pathName.drop base.length) with
    | .error e => .error e
    | .ok (fs2, ops2) => .ok (fs2, ops1 ++ ops2)

/-- Helper: getRedirect on a sidecar whose status is nonzero, not 200, not
in the redirect range and outside [500,600) throws the CachedError built
from the recorded status, message and headers. -/
theorem getRedirect_cached_error {A : Type} (cachePathOf : A → String)
    (redirect : A → String → A) (store : String → Option InternalHeaders)
    (addr : A) (h : InternalHeaders) (budget : Nat)
    (hstore : store (cachePathOf addr) = some h)
    (h0 : h.status ≠ 0) (h200 : h.status ≠ 200)
    (h3 : ¬(300 ≤ h.status ∧ h.status ≤ 308))
    (h5 : h.status < 500 ∨ 600 ≤ h.status) :
    getRedirect cachePathOf redirect store budget addr =
      .error ⟨h.status, h.cgetMessage, h⟩ := by
  rw [getRedirect.eq_def]
  simp only [getHeaders, hstore, Option.getD_some]
  rw [if_neg (by rintro ⟨-, h3a, h8a, -⟩; exact h3 ⟨h3a, h8a⟩),
    if_pos ⟨h0, h200, h5⟩]

end Cget

/-- C2: the path derived for any cache key contains only characters from
[-_./0-9A-Za-z] plus the platform separator, and (splitting on the
separator) has no .. component; moreover every component neither starts
nor ends with a character from [-_./] — the leading and trailing class
runs of each component have been stripped.  sep is the platform
separator, either the slash itself or a character outside the allowed
class (such as the backslash). -/
theorem Cget.c2_sanitized_paths (s : String) (sep : Char)
    (hsep : sep = '/' ∨ Cget.allowedChar sep = false) :
    (∀ c ∈ (Cget.setKey sep s).toList, Cget.allowedChar c = true ∨ c = sep) ∧
    (∀ part ∈ Cget.splitWhen (fun c => c = sep) (Cget.setKey sep s).toList,
      part ≠ ['.', '.'] ∧ Cget.headOK part = true ∧ Cget.lastOK part = true) := by
  have hchars : ∀ c ∈ Cget.replace3 (Cget.replace2 (Cget.replace1 s.toList)),
      Cget.allowedChar c = true := by
    intro c hc
    rcases Cget.mem_r3go _ _ hc with h | h | h
    · simp at h
    · have h1 := Cget.mem_r2go true _ h
      simp only [Cget.replace1, List.mem_map] at h1
      obtain ⟨a, _, ha⟩ := h1
      subst ha
      by_cases haa : Cget.allowedChar a = true
      · rw [if_pos haa]
        exact haa
      · rw [if_neg haa]
        rfl
    · subst h
      rfl
  have hinv := Cget.r3go_invariants (Cget.replace2 (Cget.replace1 s.toList)) []
    (by simp) (by simpa using Cget.slashOK_r2go (Cget.replace1 s.toList) true)
  obtain ⟨hslash, hbefore, hheadc⟩ := hinv
  have hhead : Cget.headOK
      (Cget.replace3 (Cget.replace2 (Cget.replace1 s.toList))) = true :=
    hheadc (by simpa using Cget.headOK_r2go_true (Cget.replace1 s.toList))
  have hlist : (Cget.setKey sep s).toList =
      (Cget.replace3 (Cget.replace2 (Cget.replace1 s.toList))).map
        (fun c => if c = '/' then sep else c) := rfl
  have hsep' : sep = '/' ∨
      ∀ y ∈ Cget.replace3 (Cget.replace2 (Cget.replace1 s.toList)), y ≠ sep := by
    rcases hsep with h | h
    · exact Or.inl h
    · refine Or.inr fun y hy heq => ?_
      have := hchars y hy
      rw [heq, h] at this
      exact Bool.false_ne_true this
  constructor
  · intro c hc
    rw [hlist] at hc
    simp only [List.mem_map] at hc
    obtain ⟨a, ha, hsub⟩ := hc
    subst hsub
    by_cases has : a = '/'
    · simp [has]
    · simp only [if_neg has]
      exact Or.inl (hchars a ha)
  · intro part hp
    rw [hlist, Cget.splitWhen_map_sep sep _ hsep'] at hp
    simp only [List.mem_map] at hp
    obtain ⟨p0, hp0, hsub⟩ := hp
    have hnos : ∀ y ∈ p0, y ≠ '/' := by
      intro y hy heq
      have := Cget.splitWhen_parts_no_sep _ _ _ hp0 y hy
      rw [heq] at this
      simp at this
    have hid : p0.map (fun c => if c = '/' then sep else c) = p0 := by
      rw [show p0.map (fun c => if c = '/' then sep else c) = p0.map id from
        List.map_congr_left fun a ha => by simp [if_neg (hnos a ha)]]
      exact List.map_id p0
    rw [hid] at hsub
    subst hsub
    have hho : Cget.headOK p0 = true :=
      (Cget.splitWhen_headOK _ hslash).2 hhead p0 hp0
    have hlo : Cget.lastOK p0 = true := Cget.splitWhen_lastOK _ hbefore p0 hp0
    refine ⟨?_, hho, hlo⟩
    intro hdd
    subst hdd
    simp [Cget.headOK, Cget.classChar] at hho

/-- Witness for c2_sanitized_paths: the key a:b/../c sanitizes to a_b/c,
and the theorem applies to it with sep the slash. -/
theorem Cget.c2_sanitized_paths_witness :
    Cget.setKey '/' "a:b/../c" = "a_b/c" ∧
    (∀ part ∈ Cget.splitWhen (fun c => c = '/') (Cget.setKey '/' "a:b/../c").toList,
      part ≠ ['.', '.']) := by
  refine ⟨by decide, fun part hp => ?_⟩
  exact ((Cget.c2_sanitized_paths "a:b/../c" '/' (Or.inl rfl)).2 part hp).1

/-- C7: after construction and after any sequence of redirect calls, a
file: url yields isLocal and not isRemote while any other url yields
isRemote and not isLocal (classification of the resolved url); a urn
yields neither; a redirect with isFake false pushes the prior url, path
and data onto history and sets the sticky wasLocal / wasRemote flags,
which never revert to false over further redirects. -/
theorem Cget.c7_address_invariants {α : Type} (deps : Cget.UrlLib) (sep : Char)
    (a : Cget.Address α) (url0 : String) (isFake : Bool) (data : Option α)
    (uri base : String) (ck : Option String) :
    (∀ a', a.redirect deps sep url0 isFake data = .ok a' →
      a'.isLocal = Cget.startsWithCI "file:" (deps.resolve a.url url0) ∧
      a'.isRemote = !a'.isLocal ∧
      a'.wasLocal = (a.wasLocal || a.isLocal) ∧
      a'.wasRemote = (a.wasRemote || a.isRemote) ∧
      (isFake = false → a'.history = a.history ++ [(a.url, a.path, data)])) ∧
    (Cget.startsWithCI "urn:" uri = true → ∀ a',
      Cget.Address.make α deps sep uri base ck = .ok a' →
      a'.isLocal = false ∧ a'.isRemote = false ∧ a'.urn = some uri) ∧
    (∀ (ops : List (String × Bool × Option α)) a',
      Cget.Address.foldRedirects deps sep a ops = .ok a' →
      (a.wasLocal = true → a'.wasLocal = true) ∧
      (a.wasRemote = true → a'.wasRemote = true)) := by
  refine ⟨?_, ?_, ?_⟩
  · intro a' h
    have hc := Cget.Address.redirect_ok_classify deps sep a url0 isFake data a' h
    exact ⟨hc.1, hc.2.1, hc.2.2.1, hc.2.2.2.1, hc.2.2.2.2.2⟩
  · intro hu a' h
    have hc := Cget.Address.make_urn deps sep uri base ck a' hu h
    exact ⟨hc.1, hc.2.1, hc.2.2.1⟩
  · intro ops a' h
    exact Cget.Address.foldRedirects_sticky deps sep ops a a' h

/-! Concrete url library and addresses used as witnesses: the resolver
returns its second argument unchanged, parsing yields no pieces and
decoding is the identity. -/

def Cget.depsW : Cget.UrlLib :=
  { resolve := fun _ u => u, parse := fun _ => {}, decode := id }

def Cget.addrW : Cget.Address Unit :=
  { uri := "u", url := "http://h/", isRemote := true }

def Cget.addrW2 : Cget.Address Unit :=
  { uri := "u", url := "file:///tmp/x", history := [("http://h/", none, none)],
    path := some "/tmp/x", wasRemote := true, isLocal := true, isRemote := false }

def Cget.addrW3 : Cget.Address Unit :=
  { uri := "u", url := "x", wasLocal := true, isRemote := true }

/-- Witness for c7_address_invariants at concrete inputs: a remote
address redirected to a file url, a urn construction, and a one-step
redirect sequence on an address with sticky flags set. -/
theorem Cget.c7_address_invariants_witness :
    (Cget.addrW2.isLocal =
        Cget.startsWithCI "file:" (Cget.depsW.resolve Cget.addrW.url "file:///tmp/x") ∧
      Cget.addrW2.isRemote = !Cget.addrW2.isLocal ∧
      Cget.addrW2.wasRemote = true ∧
      Cget.addrW2.history = [("http://h/", none, none)]) ∧
    (∀ a', Cget.Address.make Unit Cget.depsW '/' "urn:a:b" "base" none = .ok a' →
      a'.isLocal = false ∧ a'.isRemote = false ∧ a'.urn = some "urn:a:b") ∧
    (∀ a', Cget.Address.foldRedirects Cget.depsW '/' Cget.addrW3
        [("http://y/", true, none)] = .ok a' → a'.wasLocal = true) := by
  have hc7 := Cget.c7_address_invariants Cget.depsW '/' Cget.addrW "file:///tmp/x"
    false none "urn:a:b" "base" none
  refine ⟨?_, ?_, ?_⟩
  · have h : Cget.addrW.redirect Cget.depsW '/' "file:///tmp/x" false none =
        .ok Cget.addrW2 := by rfl
    have hr := hc7.1 Cget.addrW2 h
    refine ⟨hr.1, hr.2.1, ?_, hr.2.2.2.2 rfl⟩
    rw [hr.2.2.2.1]
    rfl
  · exact fun a' h => hc7.2.1 (by rfl) a' h
  · intro a' h
    have hst := (Cget.c7_address_invariants Cget.depsW '/' Cget.addrW3 "z" true none
      "urn:a:b" "base" none).2.2 [("http://y/", true, none)] a' h
    exact hst.1 rfl

/-! Concrete url library for the C8 counterexample: a small model of
node url.parse and url.resolve, evaluated only at the concrete urls of
the counterexample, where its output agrees with node (an absolute http
url resolves to itself; parsing http://example.com/ gives protocol
http:, host example.com, pathname /, no search). -/

def Cget.parseC (u : String) : Cget.ParsedUrl :=
  match Cget.findCI "://".toList u.toList with
  | none => {}
  | some rest =>
    let protoChars := u.toList.takeWhile (fun c => c ≠ ':')
    let host := rest.takeWhile (fun c => c ≠ '/' ∧ c ≠ '?')
    let after := rest.drop host.length
    let pathname := after.takeWhile (fun c => c ≠ '?')
    let search := after.drop pathname.length
    { protocol := some (String.mk protoChars ++ ":")
      host := some (String.mk host)
      pathname := if pathname = [] then none else some (String.mk pathname)
      search := if search = [] then none else some (String.mk search) }

def Cget.depsC : Cget.UrlLib :=
  { resolve := fun base u =>
      if (Cget.findCI "://".toList u.toList).isSome then u else base ++ u
    parse := Cget.parseC
    decode := id }

def Cget.pathOfE : Except String (Cget.Address Unit) → Option String
  | .ok a => a.path
  | .error _ => none

def Cget.urlOfE : Except String (Cget.Address Unit) → Option String
  | .ok a => some a.url
  | .error _ => none

/-- C8 counterexample: for the urn URI urn:a:b:c (accepted by the
parser), the url field is the base url, and re-parsing it yields the
path http/example.com, not the urn path a/b/c — so re-parsing U.url is
not path-stable over all accepted URIs. -/
theorem Cget.c8_reparse_counterexample :
    Cget.pathOfE
        (Cget.Address.make Unit Cget.depsC '/' "urn:a:b:c" "http://example.com/" none) =
      some "a/b/c" ∧
    Cget.urlOfE
        (Cget.Address.make Unit Cget.depsC '/' "urn:a:b:c" "http://example.com/" none) =
      some "http://example.com/" ∧
    Cget.pathOfE
        (Cget.Address.make Unit Cget.depsC '/' "http://example.com/"
          "http://example.com/" none) =
      some "http/example.com" ∧
    some "http/example.com" ≠ some "a/b/c" := by
  refine ⟨rfl, rfl, rfl, by decide⟩

/-- C8 amended: for every non-urn URI accepted without a caller-supplied
cacheKey, re-parsing the resulting url field yields a path equal to the
original path, provided the second parse resolves the already-absolute
url to itself and does not classify it as a urn.  (Urn addresses violate
the claim as stated: their url field is the base url, whose derived path
differs from the urn cache key.) -/
theorem Cget.c8_reparse_stable {α : Type} (deps : Cget.UrlLib) (sep : Char)
    (uri base base2 : String) (a a2 : Cget.Address α)
    (hnu1 : Cget.startsWithCI "urn:" uri = false)
    (h1 : Cget.Address.make α deps sep uri base none = .ok a)
    (hnu2 : Cget.startsWithCI "urn:" a.url = false)
    (hres : deps.resolve base2 a.url = a.url)
    (h2 : Cget.Address.make α deps sep a.url base2 none = .ok a2) :
    a2.path = a.path := by
  obtain ⟨hp1, hu1⟩ := Cget.Address.make_path deps sep uri base a hnu1 h1
  obtain ⟨hp2, _⟩ := Cget.Address.make_path deps sep a.url base2 a2 hnu2 h2
  rw [hres, hu1] at hp2
  have := hp2.trans hp1.symm
  simpa using this

def Cget.addrW4 : Cget.Address Unit :=
  { uri := "http://x", url := "http://x", path := some "null/null", isRemote := true }

/-- Witness for c8_reparse_stable: a concrete non-urn URI whose re-parse
yields the same record, hence the same path. -/
theorem Cget.c8_reparse_stable_witness :
    Cget.addrW4.path = Cget.addrW4.path ∧ Cget.addrW4.path = some "null/null" := by
  refine ⟨?_, rfl⟩
  exact Cget.c8_reparse_stable Cget.depsW '/' "http://x" "b" "b2"
    Cget.addrW4 Cget.addrW4 (by decide) (by rfl) (by decide) (by rfl) (by rfl)

/-- C4: getRedirect, on a sidecar whose status is in [300,308] with a
target present, spends one unit of the redirect budget and recurses on the
redirected address; with budget k a cached redirect chain of depth exactly
k resolves successfully to the final address, while a chain of depth k+1
throws CachedError(status of the last redirect sidecar, Too many
redirects). -/
theorem Cget.c4_redirect_budget (k : Nat) :
    Cget.getRedirect id (fun _ t => t) (Cget.chainStore k) k (Cget.chainKey 0) =
      .ok ⟨Cget.chainKey k, Cget.chainKey k, Cget.defaultHeaders⟩ ∧
    Cget.getRedirect id (fun _ t => t) (Cget.chainStore (k + 1)) k (Cget.chainKey 0) =
      .error ⟨301, some "Too many redirects", Cget.redirHdr (Cget.chainKey (k + 1))⟩ := by
  constructor
  · exact Cget.chain_resolves k k 0 (by omega) (by omega)
  · have := Cget.chain_exhausts (k + 1) k 0 (by omega)
    simpa using this

/-- C10: a sidecar recording a 5xx status is not an error on read-back:
getRedirect serves it as a normal cached response, and any CachedError it
does throw carries a status that is nonzero, not 200 and outside
[500,600). -/
theorem Cget.c10_5xx_served {A : Type} (cachePathOf : A → String)
    (redirect : A → String → A) (store : String → Option Cget.InternalHeaders) :
    (∀ (budget : Nat) (addr : A) (h : Cget.InternalHeaders),
      store (cachePathOf addr) = some h → 500 ≤ h.status → h.status < 600 →
      Cget.getRedirect cachePathOf redirect store budget addr =
        .ok ⟨addr, cachePathOf addr, h⟩) ∧
    (∀ (budget : Nat) (addr : A) (e : Cget.CachedError),
      Cget.getRedirect cachePathOf redirect store budget addr = .error e →
      e.status ≠ 0 ∧ e.status ≠ 200 ∧ (e.status < 500 ∨ 600 ≤ e.status)) := by
  constructor
  · intro budget addr h hstore h5 h6
    have hc1 : ¬(h.status ≠ 0 ∧ 300 ≤ h.status ∧ h.status ≤ 308 ∧ h.target ≠ "") := by
      rintro ⟨-, h3, h8, -⟩
      omega
    have hc2 : ¬(h.status ≠ 0 ∧ h.status ≠ 200 ∧ (h.status < 500 ∨ 600 ≤ h.status)) := by
      rintro ⟨-, -, hor⟩
      omega
    rw [Cget.getRedirect.eq_def]
    simp only [Cget.getHeaders, hstore, Option.getD_some, if_neg hc1, if_neg hc2]
  · intro budget
    induction budget with
    | zero =>
      intro addr e herr
      rw [Cget.getRedirect] at herr
      split at herr
      · next hcond =>
        simp only [Except.error.injEq] at herr
        subst herr
        obtain ⟨h0, h3, h8, _⟩ := hcond
        exact ⟨h0, by dsimp only; omega, by dsimp only; omega⟩
      · split at herr
        · next hcond =>
          simp only [Except.error.injEq] at herr
          subst herr
          exact ⟨hcond.1, hcond.2.1, hcond.2.2⟩
        · simp at herr
    | succ b ih =>
      intro addr e herr
      rw [Cget.getRedirect] at herr
      split at herr
      · exact ih _ e herr
      · split at herr
        · next hcond =>
          simp only [Except.error.injEq] at herr
          subst herr
          exact ⟨hcond.1, hcond.2.1, hcond.2.2⟩
        · simp at herr

/-- Witness for c10_5xx_served: a concrete store with a 503 sidecar is
served as a cache hit, and a concrete store with a 404 sidecar produces a
CachedError whose status is outside [500,600). -/
theorem Cget.c10_5xx_served_witness :
    Cget.getRedirect (A := String) id (fun _ t => t)
      (fun s => if s = "k" then
          some { cgetStatus := some 503, cgetMessage := some "Service Unavailable" }
        else none) 5 "k" =
      .ok ⟨"k", "k", { cgetStatus := some 503, cgetMessage := some "Service Unavailable" }⟩ ∧
    ((404 : Nat) ≠ 0 ∧ (404 : Nat) ≠ 200 ∧ ((404 : Nat) < 500 ∨ 600 ≤ (404 : Nat))) := by
  constructor
  · exact (Cget.c10_5xx_served id (fun _ t => t) _).1 5 "k" _ (by decide)
      (by decide) (by decide)
  · have h404 : Cget.getRedirect (A := String) id (fun _ t => t)
        (fun s => if s = "k" then
            some { cgetStatus := some 404, cgetMessage := some "Not Found" }
          else none) 5 "k" =
        .error ⟨404, some "Not Found",
          { cgetStatus := some 404, cgetMessage := some "Not Found" }⟩ := by
      rfl
    exact (Cget.c10_5xx_served id (fun _ t => t) _).2 5 "k" _ h404

/-- C3: a non-200, non-5xx HTTP response with cache writes allowed makes
onResponse write a sidecar-only entry whose cget-status records the
status, and fail the attempt with CachedError(status); a subsequent fetch
of the same URI with cache reads allowed (which dispatches to the cache
strategy) reads that sidecar back as CachedError with the recorded status
and message, and the fetch catch re-throws it instead of falling through
to the network. -/
theorem Cget.c3_cached_error_roundtrip {A : Type}
    (cachePathOf : A → String) (redirect : A → String → A)
    (store : String → Option Cget.InternalHeaders)
    (raw : Cget.InternalHeaders) (stamp status : Nat) (message : String)
    (addr : A) (budget : Nat)
    (hnot5xx : ¬(500 ≤ status ∧ status < 600)) (hnot200 : status ≠ 200) :
    (Cget.onResponseClassify true raw stamp status message =
      .failAct (some (Cget.responseHeaders raw stamp status message))
        ⟨status, some message, Cget.responseHeaders raw stamp status message⟩) ∧
    ((Cget.responseHeaders raw stamp status message).cgetStatus = some status) ∧
    (¬(300 ≤ status ∧ status ≤ 308) → status ≠ 0 →
      Cget.getRedirect cachePathOf redirect
        (Cget.storeSidecar store (cachePathOf addr)
          (Cget.responseHeaders raw stamp status message)) budget addr =
        .error ⟨status, some message, Cget.responseHeaders raw stamp status message⟩) ∧
    (∀ (e : Cget.CachedError) (allowRemote : Bool),
      Cget.fetchViaCache (A := A) allowRemote (.error e) = .failed (.cached e)) ∧
    (∀ allowLocal allowRemote,
      Cget.chooseHandler false allowLocal true allowRemote = .cachedPath) := by
  refine ⟨?_, rfl, ?_, ?_, ?_⟩
  · simp only [Cget.onResponseClassify, if_neg hnot5xx, if_pos hnot200, if_pos]
  · intro hnot3xx hnot0
    exact Cget.getRedirect_cached_error cachePathOf redirect
      (Cget.storeSidecar store (cachePathOf addr)
        (Cget.responseHeaders raw stamp status message))
      addr (Cget.responseHeaders raw stamp status message) budget
      (by simp [Cget.storeSidecar]) hnot0 hnot200 hnot3xx
      (show status < 500 ∨ 600 ≤ status by omega)
  · intro e allowRemote
    simp [Cget.fetchViaCache, Cget.cachedCatch]
  · intro allowLocal allowRemote
    simp [Cget.chooseHandler]

/-- Witness for c3_cached_error_roundtrip: the 404 case at concrete
inputs. -/
theorem Cget.c3_cached_error_roundtrip_witness :
    (Cget.onResponseClassify true {} 7 404 "Not Found" =
      .failAct (some (Cget.responseHeaders {} 7 404 "Not Found"))
        ⟨404, some "Not Found", Cget.responseHeaders {} 7 404 "Not Found"⟩) ∧
    (Cget.getRedirect (A := String) id (fun _ t => t)
      (Cget.storeSidecar (fun _ => none) "u" (Cget.responseHeaders {} 7 404 "Not Found"))
      5 "u" =
      .error ⟨404, some "Not Found", Cget.responseHeaders {} 7 404 "Not Found"⟩) ∧
    (Cget.fetchViaCache (A := String) true
      (.error ⟨404, some "Not Found", Cget.responseHeaders {} 7 404 "Not Found"⟩) =
      .failed (.cached ⟨404, some "Not Found", Cget.responseHeaders {} 7 404 "Not Found"⟩)) := by
  have h := Cget.c3_cached_error_roundtrip (A := String) id (fun _ t => t)
    (fun _ => none) {} 7 404 "Not Found" "u" 5 (by omega) (by omega)
  exact ⟨h.1, h.2.2.1 (by omega) (by omega), h.2.2.2.1 _ true⟩

/-- C6: in a remote transfer, every chunk arriving before startStream
resolves is queued in chunkList and every error in errorList, with
nothing reaching the output; once streaming opens, the queued chunks are
written to the output (and cache writer) in arrival order, then the
queued errors are emitted, then both queues are cleared, and only
afterwards do live events flow directly — so the caller observes all
buffered bytes before buffered errors and before any live bytes. -/
theorem Cget.c6_buffer_replay_order (hasStore : Bool) (pre post : List Cget.TEv)
    (hpre : Cget.TEv.openEv ∉ pre) (hpost : Cget.TEv.openEv ∉ post) :
    (Cget.transferRun ⟨hasStore, false, [], [], false⟩ pre).1.chunkList =
      Cget.datasOf pre ∧
    (Cget.transferRun ⟨hasStore, false, [], [], false⟩ pre).1.errorList =
      Cget.errsOf pre ∧
    (Cget.transferRun ⟨hasStore, false, [], [], false⟩ pre).2 = [] ∧
    (Cget.transferRun ⟨hasStore, false, [], [], false⟩
        (pre ++ Cget.TEv.openEv :: post)).2 =
      ((Cget.datasOf pre).map (Cget.liveData hasStore)).flatten ++
      (Cget.errsOf pre).map Cget.Out.bufError ++
      (if Cget.sawEnd pre then Cget.liveEnd hasStore else []) ++
      Cget.liveOuts hasStore post ∧
    (Cget.transferRun ⟨hasStore, false, [], [], false⟩
        (pre ++ Cget.TEv.openEv :: post)).1.chunkList = [] ∧
    (Cget.transferRun ⟨hasStore, false, [], [], false⟩
        (pre ++ Cget.TEv.openEv :: post)).1.errorList = [] := by
  have hbuf := Cget.transferRun_buffering hasStore pre [] [] false hpre
  have hall : Cget.transferRun ⟨hasStore, false, [], [], false⟩
      (pre ++ Cget.TEv.openEv :: post) =
      (⟨hasStore, true, [], [], Cget.sawEnd pre⟩,
        ((Cget.datasOf pre).map (Cget.liveData hasStore)).flatten ++
        (Cget.errsOf pre).map Cget.Out.bufError ++
        (if Cget.sawEnd pre then Cget.liveEnd hasStore else []) ++
        Cget.liveOuts hasStore post) := by
    rw [Cget.transferRun_append, hbuf]
    simp only [List.nil_append]
    show (_, ([] : List Cget.Out) ++ _) = _
    rw [show (Cget.transferRun ⟨hasStore, false, Cget.datasOf pre, Cget.errsOf pre,
        false || Cget.sawEnd pre⟩ (Cget.TEv.openEv :: post)) =
      (let p := Cget.transferStep ⟨hasStore, false, Cget.datasOf pre, Cget.errsOf pre,
          false || Cget.sawEnd pre⟩ Cget.TEv.openEv
       let q := Cget.transferRun p.1 post
       (q.1, p.2 ++ q.2)) from rfl]
    simp only [Cget.transferStep, Bool.false_or]
    rw [Cget.transferRun_streaming hasStore post (Cget.sawEnd pre) hpost]
    simp [List.append_assoc]
  refine ⟨?_, ?_, ?_, ?_, ?_, ?_⟩ <;> first
  | (rw [hbuf]; try simp)
  | (rw [hall]; try simp)

/-- Witness for c6_buffer_replay_order at a concrete event trace: two
chunks and one error arrive before the stream opens, one chunk after. -/
theorem Cget.c6_buffer_replay_order_witness :
    (Cget.transferRun ⟨true, false, [], [], false⟩
        ([.dataEv 1, .errEv 9, .dataEv 2] ++ Cget.TEv.openEv :: [.dataEv 3])).2 =
      [.storeWrite 1, .bufWrite 1, .storeWrite 2, .bufWrite 2, .bufError 9,
        .storeWrite 3, .bufWrite 3] := by
  have h := Cget.c6_buffer_replay_order true
    [.dataEv 1, .errEv 9, .dataEv 2] [.dataEv 3]
    (by decide) (by decide)
  rw [h.2.2.2.1]
  rfl

def Cget.fs0 : Cget.FS := [([], .dir), (["tmp"], .dir), (["tmp", "a"], .file "X")]

def Cget.opsOfE : Except String (Cget.FS × List Cget.FSOp) → List Cget.FSOp
  | .ok r => r.2
  | .error _ => []

/-- C9 counterexample: healing an existing file renames it to the
sibling path with a dot-separated random suffix (component.random), not
to a dotfile inside the component directory (component/.random) as the
claim states — at the moment of the rename that directory does not exist
yet. -/
theorem Cget.c9_temp_sibling_counterexample :
    (Cget.opsOfE (Cget.mkdirp Cget.fs0 ["tmp", "a", "b"] "index.html" "q0q0q0")).head? =
      some (.rename ["tmp", "a"] ["tmp", "a.q0q0q0"]) ∧
    Cget.FSOp.rename ["tmp", "a"] ["tmp", "a", ".q0q0q0"] ∉
      Cget.opsOfE (Cget.mkdirp Cget.fs0 ["tmp", "a", "b"] "index.html" "q0q0q0") ∧
    (["tmp", "a.q0q0q0"] : List String) ≠ ["tmp", "a", ".q0q0q0"] := by
  refine ⟨rfl, by decide, by decide⟩

/-- C9 amended: mkdirp walks toward the root until an existing node is
found; a file found where a directory is needed is renamed to the
sibling path component.random (the component path with a dot and the
random suffix appended), the directory is created at that component, and
the renamed file moves inside as component/indexName; missing components
are created tolerating EEXIST, and any other unexpected errno fails the
call with the underlying error. -/
theorem Cget.c9_mkdirp_amended (fs : Cget.FS) (p pre : List String) (e : String)
    (k : Cget.NodeKind) (indexName suffix : String) :
    (Cget.mkdirp Cget.fs0 ["tmp", "a", "b"] "index.html" "q0q0q0" =
      .ok ([([], .dir), (["tmp"], .dir), (["tmp", "a"], .dir),
            (["tmp", "a", "index.html"], .file "X"), (["tmp", "a", "b"], .dir)],
        [.rename ["tmp", "a"] ["tmp", "a.q0q0q0"], .mkdir ["tmp", "a"],
          .rename ["tmp", "a.q0q0q0"] ["tmp", "a", "index.html"],
          .mkdir ["tmp", "a", "b"]])) ∧
    (Cget.fsLookup fs p = some k → Cget.mkdirPart fs p = .ok (fs, [.mkdir p])) ∧
    (Cget.mkdirFS fs p = .error e → e ≠ "EEXIST" → Cget.mkdirPart fs p = .error e) ∧
    (Cget.tryBase fs pre indexName suffix = .error e → e ≠ "ENOENT" →
      e ≠ "ENOTDIR" → Cget.findBase indexName suffix fs pre = .error e) := by
  refine ⟨by rfl, ?_, ?_, ?_⟩
  · intro hk
    unfold Cget.mkdirPart Cget.mkdirFS
    rw [hk]
    rfl
  · intro he hne
    unfold Cget.mkdirPart
    rw [he]
    dsimp only
    rw [if_neg hne]
  · intro he h1 h2
    cases pre with
    | nil =>
      show (match Cget.tryBase fs [] indexName suffix with
        | .ok r => Except.ok (r.1, r.2, ([] : List String))
        | .error e =>
          if e = "ENOENT" ∨ e = "ENOTDIR" then .ok (fs, [], []) else .error e) =
        .error e
      rw [he]
      dsimp only
      rw [if_neg (by simp [h1, h2])]
    | cons q qs =>
      show (match Cget.tryBase fs (q :: qs) indexName suffix with
        | .ok r => Except.ok (r.1, r.2, q :: qs)
        | .error e =>
          if e = "ENOENT" ∨ e = "ENOTDIR" then
            Cget.findBaseGo indexName suffix fs qs.length (q :: qs).dropLast
          else .error e) = .error e
      rw [he]
      dsimp only
      rw [if_neg (by simp [h1, h2])]

/-- Witness for c9_mkdirp_amended at concrete inputs: an existing
directory is tolerated, a missing parent propagates ENOENT, and a weird
node kind fails the walk. -/
theorem Cget.c9_mkdirp_amended_witness :
    Cget.mkdirPart Cget.fs0 ["tmp"] = .ok (Cget.fs0, [.mkdir ["tmp"]]) ∧
    Cget.mkdirPart Cget.fs0 ["nope", "x"] = .error "ENOENT" ∧
    Cget.findBase "index.html" "q0q0q0" [([], .dir), (["bad"], .other)] ["bad"] =
      .error "EWEIRD" := by
  refine ⟨?_, ?_, ?_⟩
  · exact (Cget.c9_mkdirp_amended Cget.fs0 ["tmp"] [] "" .dir "" "").2.1 (by decide)
  · exact (Cget.c9_mkdirp_amended Cget.fs0 ["nope", "x"] [] "ENOENT" .dir "" "").2.2.1
      (by rfl) (by decide)
  · exact (Cget.c9_mkdirp_amended [([], .dir), (["bad"], .other)] [] ["bad"] "EWEIRD"
      .dir "index.html" "q0q0q0").2.2.2 (by rfl) (by decide) (by decide)

/-- C5: an error code in the transient set triggers the retry branch (which
calls FetchState.retryLater), any other code triggers die; retryLater with
no remaining budget is a no-op, and with budget it decrements the budget,
resets the strategy index to 0, sets the next-attempt delay to
retryDelay*(1+random) and multiplies retryDelay by retryBackoffFactor. -/
theorem Cget.c5_transient_retry_policy (code : String) (s : Cget.FetchState) (rand : Rat) :
    (code ∈ ["EAI_AGAIN", "ECONNREFUSED", "ECONNRESET", "EHOSTUNREACH",
             "ENOTFOUND", "EPIPE", "ESOCKETTIMEDOUT", "ETIMEDOUT"] →
      Cget.handleRequestError (some code) = .retry) ∧
    (code ∉ ["EAI_AGAIN", "ECONNREFUSED", "ECONNRESET", "EHOSTUNREACH",
             "ENOTFOUND", "EPIPE", "ESOCKETTIMEDOUT", "ETIMEDOUT"] →
      Cget.handleRequestError (some code) = .die) ∧
    (s.retriesRemaining ≤ 0 → s.retryLater rand = s) ∧
    (0 < s.retriesRemaining →
      (s.retryLater rand).retriesRemaining = s.retriesRemaining - 1 ∧
      (s.retryLater rand).strategyNum = 0 ∧
      (s.retryLater rand).strategyDelay = s.retryDelay * (1 + rand) ∧
      (s.retryLater rand).retryDelay = s.retryDelay * s.retryBackoffFactor) := by
  refine ⟨?_, ?_, ?_, ?_⟩
  · intro hmem
    have h1 : Cget.retryCodeTbl (some code) = true := by
      fin_cases hmem <;> decide
    simp [Cget.handleRequestError, h1]
  · intro hmem
    have h1 : Cget.retryCodeTbl (some code) = false := by
      by_contra hc
      rw [Bool.not_eq_false, Cget.retryCodeTbl, Option.getD_some, List.elem_iff] at hc
      have hlist : Cget.retryCodeList =
          (["EAI_AGAIN", "ECONNREFUSED", "ECONNRESET", "EHOSTUNREACH",
            "ENOTFOUND", "EPIPE", "ESOCKETTIMEDOUT", "ETIMEDOUT"] :
            List String).map String.toList := by decide
      rw [hlist, List.mem_map] at hc
      obtain ⟨s, hs, hst⟩ := hc
      exact hmem (by rwa [show s = code from String.ext hst] at hs)
    simp [Cget.handleRequestError, h1]
  · intro hle
    simp [Cget.FetchState.retryLater, hle]
  · intro hpos
    have hnot : ¬ s.retriesRemaining ≤ 0 := by omega
    simp [Cget.FetchState.retryLater, hnot]

/-- Witness for c5_transient_retry_policy at concrete inputs. -/
theorem Cget.c5_transient_retry_policy_witness :
    Cget.handleRequestError (some "ECONNRESET") = .retry ∧
    Cget.handleRequestError (some "EWEIRD") = .die ∧
    ({ retriesRemaining := 0 : Cget.FetchState }.retryLater (1/2) =
      { retriesRemaining := 0 : Cget.FetchState }) ∧
    ({ retriesRemaining := 2, retryDelay := 100, retryBackoffFactor := 3 :
        Cget.FetchState }.retryLater (1/2)).strategyDelay = 150 := by
  refine ⟨?_, ?_, ?_, ?_⟩
  · exact (Cget.c5_transient_retry_policy "ECONNRESET" {} 0).1 (by decide)
  · exact (Cget.c5_transient_retry_policy "EWEIRD" {} 0).2.1 (by decide)
  · exact (Cget.c5_transient_retry_policy "x" { retriesRemaining := 0 } (1/2)).2.2.1
      (by decide)
  · have h := (Cget.c5_transient_retry_policy "x"
      { retriesRemaining := 2, retryDelay := 100, retryBackoffFactor := 3 } (1/2)).2.2.2
      (by decide)
    rw [h.2.2.1]
    norm_num

/-- C1: the claim states that for every fetch call, under any permitted
combination of options, the opened callback is invoked at most once.  The
code violates this.  With cache reads allowed, when the server redirects
to a URI whose cache entry exists, followRedirect starts fetchCached on
the target with the very opened wrapper of Cache.fetch; the cached file's
open event invokes opened (first call) while the isFound flag is only set
when the cached body has been read to its end.  If the final 200 response
arrives before that end, the response handler's guard `if isFound return`
does not fire, and the pipeReady chain invokes opened a second time; the
wrapper (Cache.ts lines 380-384) only checks isErrored, never isOpened,
so both calls go through.  Folding the realizable event order
redirect-to-cached-target, cached open, 200 response, pipe ready yields
openedCount = 2 with erroredCount = 0. -/
theorem Cget.c1_opened_twice :
    (Cget.runRemote true true {} [.redirect true, .cachedOpen,
        .response 200, .pipeReady]).openedCount = 2 ∧
    (Cget.runRemote true true {} [.redirect true, .cachedOpen,
        .response 200, .pipeReady]).erroredCount = 0 := by
  exact ⟨rfl, rfl⟩
